import Mathlib

/-!
# Verification of the sinfonia process supervisor core

Shallow embedding of the process-lifecycle / dependency-readiness engine and
the log-aggregation / filtering model of the `sinfonia` terminal supervisor
(`src/index.ts`, `src/process/lifecycle.ts`, `src/process/handlers.ts`,
`src/process/search.ts`, `src/process/logs.ts`).

Conventions used throughout:
* JavaScript objects used as string-keyed maps are embedded as total functions
  `String → Option β` (a key that was never assigned maps to `none`,
  mirroring `undefined`), or `String → Bool` for maps read only through
  truthiness tests.
* `command.dependsOn` (an optional array) is embedded as a plain list; the
  absent case behaves exactly like the empty list at every use site
  (`dependsOn?.length` is falsy, `forEach`/`filter`/`includes` over nothing).
* `command.readyPatterns` is embedded as an association list keyed by the
  (lower-cased) dependency name; `readyPatterns?.[k]` truthiness also treats
  the empty-string pattern as absent, exactly like JavaScript.
* Regular-expression matching (`new RegExp(p).test(s)`) is an external
  collaborator and is abstracted as an arbitrary function
  `rmatch : String → String → Bool` (pattern, line) passed as a parameter.
* Wall-clock timestamps (`Date.now()`) are abstracted by a monotone counter
  carried in the state.
-/

namespace Sinfonia

/-- A process state as stored in `processStates` (`"running" | "stopped"`). -/
inductive PState where
  | running
  | stopped
deriving DecidableEq, Repr

/-- One buffered log entry (`{ data, color, timestamp }` in `logBuffers`). -/
structure LogEntry where
  data : String
  color : String
  timestamp : Nat
deriving DecidableEq, Repr

/-- A command spec (`Command` in `src/types/index.ts`).  `dependsOn`/
`readyPatterns` use `[]` for the absent optional, which is observationally
identical at every use site in the source. -/
structure Command where
  name : String
  cmd : String
  color : String
  group : Option String := none
  dependsOn : List String := []
  readyPatterns : List (String × String) := []
deriving DecidableEq, Repr

/-- A group spec (`Group` in `src/types/index.ts`). -/
structure Group where
  name : String
  color : String
  commands : List String
deriving DecidableEq, Repr

/-- The configuration handed to `ProcessManager`'s constructor. -/
structure Config where
  commands : List Command
  groups : List Group
  maxLogsPerProcess : Nat
deriving DecidableEq, Repr

/-- `this.commands.find((cmd) => cmd.name === name)`. -/
def findCommand (cfg : Config) (name : String) : Option Command :=
  cfg.commands.find? (fun c => c.name = name)

/-- `this.commands.find((c) => c.name === name)?.color || ""` — the color
used for lifecycle log entries (JS `||` maps both `undefined` and `""` to
`""`, and the embedding's `getD "" ` agrees on both). -/
def colorOf (cfg : Config) (name : String) : String :=
  ((findCommand cfg name).map Command.color).getD ""

/-- `String.prototype.toLowerCase`, as a structural character-wise map
(identical to `String.toLower`, written without its well-founded byte
recursion). -/
def jsToLower (s : String) : String :=
  String.mk (s.data.map Char.toLower)

/-- `command.readyPatterns?.[dep.toLowerCase()]` as an option. -/
def patternLookup (c : Command) (dep : String) : Option String :=
  List.lookup (jsToLower dep) c.readyPatterns

/-- JavaScript truthiness of `command.readyPatterns?.[dep.toLowerCase()]`:
present and not the empty string. -/
def patTruthy (c : Command) (dep : String) : Bool :=
  match patternLookup c dep with
  | some p => !(p = "")
  | none => false

/-- The ready pattern of `c` for dependency `dep`
(`command.readyPatterns[dep.toLowerCase()]`), defaulting to `""`. -/
def patternOf (c : Command) (dep : String) : String :=
  (patternLookup c dep).getD ""

/-! ## Log Store ring buffer (`addLog`, src/index.ts:202-208 and
`LogManager.addLog`, src/process/logs.ts) -/

/-- `buffer.push({data,color,timestamp}); if (buffer.length >
maxLogsPerProcess) buffer.shift();` — one append to a per-process ring
buffer. -/
def ringPush (maxLogs : Nat) (buf : List LogEntry) (e : LogEntry) : List LogEntry :=
  let b := buf ++ [e]
  if maxLogs < b.length then b.tail else b

/-- Split a character list at newline characters (the semantics of
JavaScript `text.split("\n")`). -/
def splitLinesAux : List Char → List Char → List String
  | [], acc => [String.mk acc.reverse]
  | c :: cs, acc =>
    if c = '\n' then String.mk acc.reverse :: splitLinesAux cs []
    else splitLinesAux cs (c :: acc)

/-- `text.split("\n")`. -/
def splitLines (s : String) : List String :=
  splitLinesAux s.toList []

/-- Modelled from the spec (refinement target for C4): the Log Store append
that the spec describes, which would split `text` on internal newlines and
push one entry per non-empty line, all sharing one timestamp.  This is NOT
what the source does; it exists only to be compared against `ringPush`-based
`addLog`. -/
def specSplitAppend (maxLogs : Nat) (buf : List LogEntry) (text color : String)
    (timestamp : Nat) : List LogEntry :=
  ((splitLines text).filter (fun ln => !(ln = ""))).foldl
    (fun acc ln => ringPush maxLogs acc ⟨ln, color, timestamp⟩) buf

end Sinfonia

namespace Sinfonia

/-! ## Whole-manager mutable state (`ProcessManager` fields that the
lifecycle operations touch) -/

/-- The mutable fields of `ProcessManager` relevant to process lifecycle and
in-memory logging.  `processes` maps a name to the pid of its tracked child
handle (`none` = no handle); `nextPid` abstracts the OS pid supply; `clock`
abstracts `Date.now()`. -/
structure SysState where
  processes : String → Option Nat
  processStates : String → Option PState
  dependencyReady : String → String → Bool
  pendingProcesses : List String
  logBuffers : String → List LogEntry
  nextPid : Nat
  clock : Nat

/-- Pointwise update of a string-keyed map. -/
def upd {β : Type} (m : String → β) (k : String) (v : β) : String → β :=
  fun x => if x = k then v else m x

/-- `this.addLog(name, data, color)` restricted to its in-memory effect:
push onto the per-process ring buffer (the screen update is external
rendering; the file-logging side effect is modelled separately in
`FileLogState`). -/
def SysState.addLog (cfg : Config) (st : SysState) (name data color : String) : SysState :=
  { st with
    logBuffers := upd st.logBuffers name
      (ringPush cfg.maxLogsPerProcess (st.logBuffers name) ⟨data, color, st.clock⟩)
    clock := st.clock + 1 }

/-- The `unreadyDeps` filter predicate of `startProcess`
(src/index.ts:559-568): `hasReadyPattern ? (!isProcessRunning ||
!hasSeenPattern) : !isProcessRunning`. -/
def unreadySP (st : SysState) (name : String) (c : Command) (dep : String) : Bool :=
  let hasReadyPattern := patTruthy c dep
  let isProcessRunning : Bool := st.processStates dep = some PState.running
  let hasSeenPattern := st.dependencyReady name (jsToLower dep)
  if hasReadyPattern then !isProcessRunning || !hasSeenPattern else !isProcessRunning

/-- The `unreadyDeps` filter predicate of `startPendingProcesses`
(src/index.ts:668-677): `if (hasReadyPattern && (!isProcessRunning ||
!hasSeenPattern)) return true; return !isProcessRunning;`. -/
def unreadyRC (st : SysState) (name : String) (c : Command) (dep : String) : Bool :=
  let hasReadyPattern := patTruthy c dep
  let isProcessRunning : Bool := st.processStates dep = some PState.running
  let hasSeenPattern := st.dependencyReady name (jsToLower dep)
  if hasReadyPattern && (!isProcessRunning || !hasSeenPattern) then true
  else !isProcessRunning

/-- `this.pendingProcesses.add(name)` (a JS `Set`). -/
def pendingAdd (l : List String) (name : String) : List String :=
  if name ∈ l then l else l ++ [name]

/-- `startProcess(name)` (src/index.ts:554-597): dependency gate, then
spawn.  Spawning records a fresh handle and marks the state running; the
stream/exit handler wiring is modelled by the event semantics below. -/
def startProcess (cfg : Config) (st : SysState) (name : String) : SysState :=
  match findCommand cfg name with
  | none => st
  | some command =>
    let unready := command.dependsOn.filter (fun dep => unreadySP st name command dep)
    if command.dependsOn ≠ [] ∧ unready ≠ [] then
      SysState.addLog cfg
        { st with pendingProcesses := pendingAdd st.pendingProcesses name }
        name ("Waiting for dependencies: " ++ String.intercalate ", " unready)
        command.color
    else
      { st with
        processes := upd st.processes name (some st.nextPid)
        processStates := upd st.processStates name (some PState.running)
        nextPid := st.nextPid + 1 }

/-- `toggleProcess(name)` (src/index.ts:686-706).  `kill()` leaves the
tracked handle in place; only the state flips and one entry is logged. -/
def toggleProcess (cfg : Config) (st : SysState) (name : String) : SysState :=
  if (st.processes name).isSome then
    if st.processStates name = some PState.running then
      SysState.addLog cfg
        { st with processStates := upd st.processStates name (some PState.stopped) }
        name "Process stopped" (colorOf cfg name)
    else
      SysState.addLog cfg (startProcess cfg st name) name "Process started" (colorOf cfg name)
  else st

/-- The group all-running check `group.commands.every((cmd) =>
this.processStates[cmd] === "running")` (src/index.ts:725-727). -/
def groupAllRunning (st : SysState) (g : Group) : Bool :=
  g.commands.all (fun c => st.processStates c = some PState.running)

/-- The per-member body of `toggleGroup`'s loop (src/index.ts:729-748). -/
def toggleGroupStep (cfg : Config) (allRunning : Bool) (acc : SysState)
    (cmdName : String) : SysState :=
  if allRunning then
    if (acc.processes cmdName).isSome then
      SysState.addLog cfg
        { acc with processStates := upd acc.processStates cmdName (some PState.stopped) }
        cmdName "Process stopped" (colorOf cfg cmdName)
    else acc
  else
    SysState.addLog cfg (startProcess cfg acc cmdName) cmdName "Process started"
      (colorOf cfg cmdName)

/-- `toggleGroup(groupName)` (src/index.ts:721-750). -/
def toggleGroup (cfg : Config) (st : SysState) (groupName : String) : SysState :=
  match cfg.groups.find? (fun g => g.name = groupName) with
  | none => st
  | some g =>
    let allRunning := groupAllRunning st g
    g.commands.foldl (toggleGroupStep cfg allRunning) st

/-- The `ProcessManager` constructor's initialisation (src/index.ts:56-84):
an empty ring buffer and state `"running"` for every configured command; no
handles are tracked yet. -/
def initSys (cfg : Config) : SysState :=
  { processes := fun _ => none
    processStates :=
      cfg.commands.foldl (fun m c => upd m c.name (some PState.running)) (fun _ => none)
    dependencyReady := fun _ _ => false
    pendingProcesses := []
    logBuffers :=
      cfg.commands.foldl (fun m c => upd m c.name []) (fun _ => [])
    nextPid := 0
    clock := 0 }

/-! ## Event semantics for the Dependency-Readiness Tracker

The core is single-threaded and event-driven: the state mutations relevant
to dependency readiness happen in the spawn path of `startProcess`, in the
`stdout` data handler, in the `exit` handler (`setupProcessHandlers`,
src/index.ts:606-658), and in the synchronous stop of
`toggleProcess`/`toggleGroup`.  A trace is the list of these mutations in
the order the event loop processed them.  A spawn triggered by a recheck
pass appears as its own `start` event. -/

/-- One processed event.  `line` is a chunk of stdout data from `name`;
`stop` is the synchronous `kill` + state flip of `toggleProcess` (which
does NOT clear any seen-ready flags — only the later `exit` event does). -/
inductive Event where
  | start (name : String)
  | line (name : String) (data : String)
  | exit (name : String)
  | stop (name : String)
deriving DecidableEq, Repr

/-- The process a given event concerns. -/
def evName : Event → String
  | .start n => n
  | .line n _ => n
  | .exit n => n
  | .stop n => n

/-- The state mutation each event's handler performs (src/index.ts:594-595
for spawn, 609-628 for the stdout ready-pattern scan, 641-657 for exit,
690-691 for the synchronous stop). -/
def stepEvent (cfg : Config) (rmatch : String → String → Bool) (st : SysState) :
    Event → SysState
  | .start n =>
    { st with
      processes := upd st.processes n (some st.nextPid)
      processStates := upd st.processStates n (some PState.running)
      nextPid := st.nextPid + 1 }
  | .stop n =>
    { st with processStates := upd st.processStates n (some PState.stopped) }
  | .exit n =>
    { st with
      processStates := upd st.processStates n (some PState.stopped)
      dependencyReady := fun c k =>
        if (cfg.commands.any fun cmd => cmd.name == c && cmd.dependsOn.contains n)
            && (k == jsToLower n) then false
        else st.dependencyReady c k }
  | .line n s =>
    { st with
      dependencyReady := fun c k =>
        if (cfg.commands.any fun w =>
              w.name == c && w.dependsOn.contains n && patTruthy w n
                && rmatch (patternOf w n) s)
            && (k == jsToLower n) then true
        else st.dependencyReady c k }

/-- Run a trace from the constructor's initial state. -/
def runTrace (cfg : Config) (rmatch : String → String → Bool) (t : List Event) : SysState :=
  t.foldl (stepEvent cfg rmatch) (initSys cfg)

/-- Whether an output chunk `s` from dependency `d` sets `c`'s seen-ready
flag for `d` (the condition of the stdout handler's ready-pattern scan,
for the unique command `c`). -/
def matchesFor (rmatch : String → String → Bool) (c : Command) (d : String)
    (s : String) : Bool :=
  c.dependsOn.contains d && patTruthy c d && rmatch (patternOf c d) s

/-- Scanning a reverse-chronological trace: the value of `c`'s seen-ready
flag for `d` (first relevant hit wins: an `exit d` means cleared, a
matching `line d` means set). -/
def seenScan (rmatch : String → String → Bool) (c : Command) (d : String) :
    List Event → Bool
  | [] => false
  | Event.exit n :: rest =>
    if n = d then false else seenScan rmatch c d rest
  | Event.line n s :: rest =>
    if n = d ∧ matchesFor rmatch c d s then true else seenScan rmatch c d rest
  | _ :: rest => seenScan rmatch c d rest

/-- Scanning a reverse-chronological trace: whether a line of `d`'s output
matching `c`'s ready pattern for `d` has occurred since `d`'s most recent
start (a `start d` hit ends the window; a matching line inside it wins). -/
def sinceStartScan (rmatch : String → String → Bool) (c : Command) (d : String) :
    List Event → Bool
  | [] => false
  | Event.start n :: rest =>
    if n = d then false else sinceStartScan rmatch c d rest
  | Event.line n s :: rest =>
    if n = d ∧ matchesFor rmatch c d s then true else sinceStartScan rmatch c d rest
  | _ :: rest => sinceStartScan rmatch c d rest

/-- Scanning a reverse-chronological trace: the lifecycle state of `d`
(defaulting to the constructor's initial map on an exhausted trace). -/
def stateScan (cfg : Config) (d : String) : List Event → Option PState
  | [] => (initSys cfg).processStates d
  | Event.start n :: rest =>
    if n = d then some PState.running else stateScan cfg d rest
  | Event.exit n :: rest =>
    if n = d then some PState.stopped else stateScan cfg d rest
  | Event.stop n :: rest =>
    if n = d then some PState.stopped else stateScan cfg d rest
  | Event.line _ _ :: rest => stateScan cfg d rest

/-- Scanning a reverse-chronological trace: whether `d` currently has a
started instance that has not yet delivered its exit event. -/
def startedScan (d : String) : List Event → Bool
  | [] => false
  | Event.start n :: rest => if n = d then true else startedScan d rest
  | Event.exit n :: rest => if n = d then false else startedScan d rest
  | _ :: rest => startedScan d rest

/-- Well-formedness of a reverse-chronological trace: every output chunk is
delivered while its process has a live (started, exit not yet processed)
instance, and the exit event of one instance is processed before the next
instance of the same process starts.  This encodes the normal event-loop
ordering; the fire-and-forget kill-then-respawn race that the design notes
flag as accepted violates the second condition. -/
def wfCheck : List Event → Bool
  | [] => true
  | Event.line n _ :: rest => startedScan n rest && wfCheck rest
  | Event.start n :: rest => !startedScan n rest && wfCheck rest
  | _ :: rest => wfCheck rest

/-- No process named differently from `d` but colliding with `d`'s
lower-cased flag key occurs in the trace (command names are
case-normalised by the config loader, so distinct processes have distinct
lower-cased names). -/
def homogFree (t : List Event) (d : String) : Bool :=
  t.all fun ev => !(jsToLower (evName ev) == jsToLower d) || (evName ev == d)

/-! ## Topological startup ordering (`sortCommandsByDependencies`,
src/index.ts:929-947) -/

/-- The accumulator of the DFS: the `visited` name set and the output
`sorted` list. -/
structure TopoState where
  visited : List String
  sorted : List Command
deriving Repr

/-- The body of the dependency loop inside `visit`: look the dependency up
in the command set and recurse into it when it exists (`rec` is the
recursive call at the smaller fuel). -/
def visitStep (cmds : List Command) (rec : Command → TopoState → TopoState)
    (acc : TopoState) (dep : String) : TopoState :=
  match cmds.find? (fun x => x.name = dep) with
  | some depCmd => rec depCmd acc
  | none => acc

/-- The recursive `visit` closure: skip if visited, else mark visited,
visit each existing dependency, then push the command.  `fuel` bounds the
recursion depth; every use supplies more fuel than there are unvisited
commands, so the `0` branch is never reached. -/
def visit (cmds : List Command) : Nat → Command → TopoState → TopoState
  | 0, _, st => st
  | fuel + 1, c, st =>
    if c.name ∈ st.visited then st
    else
      let st1 : TopoState := ⟨c.name :: st.visited, st.sorted⟩
      let st2 := c.dependsOn.foldl (visitStep cmds (visit cmds fuel)) st1
      ⟨st2.visited, st2.sorted ++ [c]⟩

/-- `sortCommandsByDependencies()`: depth-first traversal over all
commands. -/
def sortCommandsByDependencies (cmds : List Command) : List Command :=
  (cmds.foldl (fun st c => visit cmds (cmds.length + 1) c st) ⟨[], []⟩).sorted

/-! ## Filter navigation (`navigateFilter`, src/process/search.ts:45-61 and
the keypress handler, src/index.ts:857-881) -/

/-- JavaScript truthiness of `cmd.group` (`undefined` and `""` are
falsy). -/
def groupTruthy (c : Command) : Bool :=
  match c.group with
  | some s => !(s = "")
  | none => false

/-- The flattened filter-item list `[null, ...groups.flatMap(g =>
[`group:g`, ...g.commands]), ...ungrouped]`. -/
def buildItems (groups : List Group) (cmds : List Command) : List (Option String) :=
  none ::
    ((groups.map (fun g =>
        some ("group:" ++ g.name) :: g.commands.map some)).flatten ++
      (cmds.filter (fun c => !groupTruthy c)).map (fun c => some c.name))

/-- `Array.prototype.indexOf`: first index of `x`, `-1` when absent. -/
def jsIndexOf (x : Option String) : List (Option String) → Int
  | [] => -1
  | a :: rest =>
    if a = x then 0
    else
      let r := jsIndexOf x rest
      if r = -1 then -1 else r + 1

/-- JavaScript array indexing with the out-of-range/`-1` cases defaulting
(never reached by `navigateFilter` on a nonempty item list). -/
def getAt (l : List (Option String)) (i : Int) : Option String :=
  l.getD i.toNat none

/-- The `"up" | "down"` argument of `navigateFilter`. -/
inductive Direction where
  | up
  | down
deriving DecidableEq, Repr

/-- `navigateFilter(direction)`: step the current filter through the
flattened item list, wrapping at both ends. -/
def navigateFilter (items : List (Option String)) (dir : Direction)
    (f : Option String) : Option String :=
  let currentIndex := jsIndexOf f items
  match dir with
  | .up =>
    if currentIndex > 0 then getAt items (currentIndex - 1)
    else getAt items ((items.length : Int) - 1)
  | .down =>
    if currentIndex < (items.length : Int) - 1 then getAt items (currentIndex + 1)
    else getAt items 0

/-! ## Search mode key handling (src/index.ts:820-846, `toggleSearch`
src/index.ts:387-394 / src/process/search.ts:26-38) -/

/-- The search-related `ProcessManager` fields. -/
structure SearchState where
  searchMode : Bool
  searchText : String
  searchBuffer : String
deriving DecidableEq, Repr

/-- The keys the search-mode branch of the keypress handler
distinguishes. -/
inductive Key where
  | escape
  | ctrlC
  | enter
  | backspace
  | char (s : String)
deriving DecidableEq, Repr

/-- `toggleSearch()`: flip the mode; on leaving search mode clear both the
active search text and the edit buffer. -/
def toggleSearch (st : SearchState) : SearchState :=
  let st1 := { st with searchMode := !st.searchMode }
  if !st1.searchMode then { st1 with searchText := "", searchBuffer := "" }
  else st1

/-- The search-mode branch of the keypress handler (only reached when
`searchMode` is set). -/
def handleSearchKey (st : SearchState) : Key → SearchState
  | .escape => toggleSearch st
  | .ctrlC => toggleSearch st
  | .enter => { st with searchText := st.searchBuffer }
  | .backspace => { st with searchBuffer := st.searchBuffer.dropRight 1 }
  | .char s => { st with searchBuffer := st.searchBuffer ++ s }

/-! ## File logging with the async flush queue (`flushLogs`/`queueLog`/
`addLog`, src/index.ts:86-122 and 202-236) -/

/-- The `ProcessManager` fields relevant to file logging.  A queued line is
abstracted as the (name, data, timestamp) triple it is formatted from;
the on-disk formatting/sanitisation is external to the claims. -/
structure FileLogState where
  logBuffers : String → List LogEntry
  maxLogsPerProcess : Nat
  logFile : Option String
  logQueue : List (String × String × Nat)
  isWritingLogs : Bool
  flushTimerActive : Bool
  clock : Nat

/-- `flushLogs()`: early-out when a flush is in flight, nothing is queued,
or file logging is disabled; otherwise drain the queue and hand it to
`appendFile`.  `writeOk` is the outcome of that external disk write; on
failure the log file path is cleared and the flush interval cancelled. -/
def flushLogs (writeOk : Bool) (st : FileLogState) : FileLogState :=
  if st.isWritingLogs ∨ st.logQueue = [] ∨ st.logFile = none then st
  else
    let st1 := { st with logQueue := [] }
    if writeOk then st1
    else { st1 with logFile := none, flushTimerActive := false }

/-- `addLog` including its file-logging side effect: always push to the
in-memory ring buffer; when file logging is enabled, enqueue the formatted
line (`queueLog`), which flushes once the queue exceeds 1000 entries. -/
def fileAddLog (writeOk : Bool) (st : FileLogState) (name data color : String) :
    FileLogState :=
  let st1 := { st with
    logBuffers := upd st.logBuffers name
      (ringPush st.maxLogsPerProcess (st.logBuffers name) ⟨data, color, st.clock⟩)
    clock := st.clock + 1 }
  match st1.logFile with
  | none => st1
  | some _ =>
    let st2 := { st1 with logQueue := st1.logQueue ++ [(name, data, st.clock)] }
    if 1000 < st2.logQueue.length then flushLogs writeOk st2 else st2

/-- The operations that touch the Log Store after construction. -/
inductive LogOp where
  | append (writeOk : Bool) (name data color : String)
  | flush (writeOk : Bool)

/-- Apply one Log Store operation. -/
def stepLog (st : FileLogState) : LogOp → FileLogState
  | .append w n d c => fileAddLog w st n d c
  | .flush w => flushLogs w st

/-- Apply a sequence of Log Store operations. -/
def runLogOps (st : FileLogState) (ops : List LogOp) : FileLogState :=
  ops.foldl stepLog st

/-- The pure in-memory log semantics: what the ring buffers (and clock)
do if file logging is ignored entirely. -/
def memStep (maxLogs : Nat) (p : (String → List LogEntry) × Nat) (op : LogOp) :
    (String → List LogEntry) × Nat :=
  match op with
  | .append _ n d c => (upd p.1 n (ringPush maxLogs (p.1 n) ⟨d, c, p.2⟩), p.2 + 1)
  | .flush _ => p

/-! ## Invariants for the topological sort -/

/-- Every entry of `l` is preceded (within `l`) by an entry named after each
of its dependencies that exists in the command set. -/
def depsBefore (cmds : List Command) (l : List Command) : Prop :=
  ∀ l1 c l2, l = l1 ++ c :: l2 →
    ∀ dep ∈ c.dependsOn, (cmds.find? (fun x => x.name = dep)).isSome = true →
      dep ∈ l1.map Command.name

/-- The DFS invariant: the output so far is dependency-ordered and every
pushed command has been marked visited. -/
def topoInv (cmds : List Command) (st : TopoState) : Prop :=
  depsBefore cmds st.sorted ∧ ∀ x ∈ st.sorted, x.name ∈ st.visited

/-- Number of commands whose name is not yet visited (the fuel measure). -/
def unvisitedCount (cmds : List Command) (visited : List String) : Nat :=
  (cmds.filter (fun x => decide (x.name ∉ visited))).length

/-! ## Concrete fixtures used by counterexamples and witnesses -/

/-- Fixture: `P` depends on `D` (no ready pattern); `D` is stopped. -/
def cfgPD : Config :=
  ⟨[⟨"D", "run-d", "c1", none, [], []⟩, ⟨"P", "run-p", "c2", none, ["D"], []⟩], [], 100⟩

/-- A reachable state for `cfgPD`: `P` running with a tracked handle, `D`
stopped (its exit cleared nothing else). -/
def stPD : SysState :=
  { processes := fun n => if n = "P" then some 0 else none
    processStates := fun n =>
      if n = "P" then some PState.running
      else if n = "D" then some PState.stopped else none
    dependencyReady := fun _ _ => false
    pendingProcesses := []
    logBuffers := fun _ => []
    nextPid := 1
    clock := 0 }

/-- Fixture: a single dependency-free command `A`. -/
def cfgA : Config := ⟨[⟨"A", "run-a", "c", none, [], []⟩], [], 2⟩

/-- A reachable state for `cfgA`: `A` running with a tracked handle. -/
def stA : SysState :=
  { processes := fun n => if n = "A" then some 0 else none
    processStates := fun n => if n = "A" then some PState.running else none
    dependencyReady := fun _ _ => false
    pendingProcesses := []
    logBuffers := fun _ => []
    nextPid := 1
    clock := 0 }

/-- Fixture: group `G` over dependency-free commands `A` and `B`. -/
def cfgAB : Config :=
  ⟨[⟨"A", "run-a", "c", none, [], []⟩, ⟨"B", "run-b", "c", none, [], []⟩],
    [⟨"G", "c", ["A", "B"]⟩], 100⟩

/-- A reachable state for `cfgAB`: `A` running with a tracked handle, `B`
stopped. -/
def stAB : SysState :=
  { processes := fun n => if n = "A" then some 0 else none
    processStates := fun n =>
      if n = "A" then some PState.running
      else if n = "B" then some PState.stopped else none
    dependencyReady := fun _ _ => false
    pendingProcesses := []
    logBuffers := fun _ => []
    nextPid := 5
    clock := 0 }

/-! ## Ring buffer lemmas (C3) -/

theorem ringPush_foldl (K : Nat) (hK : 1 ≤ K) :
    ∀ (l : List LogEntry) (b : List LogEntry), b.length ≤ K →
      l.foldl (ringPush K) b = (b ++ l).drop (b.length + l.length - K) := by
  intro l
  induction l with
  | nil =>
    intro b hb
    simp only [List.foldl_nil, List.append_nil, List.length_nil, Nat.add_zero]
    rw [Nat.sub_eq_zero_of_le hb, List.drop_zero]
  | cons e rest ih =>
    intro b hb
    by_cases hlen : b.length + 1 ≤ K
    · have hpush : ringPush K b e = b ++ [e] := by
        simp only [ringPush, List.length_append, List.length_cons, List.length_nil]
        rw [if_neg (by omega)]
      rw [List.foldl_cons, hpush, ih (b ++ [e]) (by
        simp only [List.length_append, List.length_cons, List.length_nil]
        omega)]
      have harr : b ++ e :: rest = (b ++ [e]) ++ rest := by simp
      have hidx : (b ++ [e]).length + rest.length - K =
          b.length + (e :: rest).length - K := by
        simp only [List.length_append, List.length_cons, List.length_nil]
        omega
      rw [harr, hidx]
    · have hbK : b.length = K := by omega
      obtain ⟨hd, tl, rfl⟩ : ∃ hd tl, b = hd :: tl := by
        cases b with
        | nil =>
          exfalso
          simp only [List.length_nil] at hbK
          omega
        | cons x xs => exact ⟨x, xs, rfl⟩
      simp only [List.length_cons] at hbK
      have hpush : ringPush K (hd :: tl) e = tl ++ [e] := by
        simp only [ringPush, List.length_append, List.length_cons, List.length_nil]
        rw [if_pos (by omega)]
        simp
      rw [List.foldl_cons, hpush, ih (tl ++ [e]) (by
        simp only [List.length_append, List.length_cons, List.length_nil]
        omega)]
      have h1 : (tl ++ [e]).length + rest.length - K = rest.length := by
        simp only [List.length_append, List.length_cons, List.length_nil]
        omega
      have h2 : (hd :: tl).length + (e :: rest).length - K = rest.length + 1 := by
        simp only [List.length_cons]
        omega
      rw [h1, h2]
      have harr : (hd :: tl) ++ e :: rest = hd :: (tl ++ [e] ++ rest) := by simp
      rw [harr, List.drop_succ_cons]

/-- C3: for every capacity `K ≥ 1` and every sequence of `N > K` appends to
a ring buffer, the buffer afterwards holds exactly the last `K` appended
entries, in insertion order (FIFO eviction of the oldest entry on each
overflow). -/
theorem c3_ring_buffer_last_k (K : Nat) (entries : List LogEntry) (hK : 1 ≤ K)
    (hN : K < entries.length) :
    entries.foldl (ringPush K) [] = entries.drop (entries.length - K) ∧
    (entries.foldl (ringPush K) []).length = K := by
  have h := ringPush_foldl K hK entries [] (by simp)
  simp only [List.length_nil, List.nil_append, Nat.zero_add] at h
  refine ⟨h, ?_⟩
  rw [h, List.length_drop]
  omega

/-- Witness for C3: the spec's own scenario — capacity 2, appends
"a","b","c" — leaves exactly ["b","c"]. -/
theorem c3_ring_buffer_last_k_witness :
    (1 ≤ 2 ∧ 2 < ([⟨"a", "", 0⟩, ⟨"b", "", 1⟩, ⟨"c", "", 2⟩] : List LogEntry).length) ∧
    ([⟨"a", "", 0⟩, ⟨"b", "", 1⟩, ⟨"c", "", 2⟩] : List LogEntry).foldl (ringPush 2) [] =
      ([⟨"a", "", 0⟩, ⟨"b", "", 1⟩, ⟨"c", "", 2⟩] : List LogEntry).drop
        (([⟨"a", "", 0⟩, ⟨"b", "", 1⟩, ⟨"c", "", 2⟩] : List LogEntry).length - 2) ∧
    (([⟨"a", "", 0⟩, ⟨"b", "", 1⟩, ⟨"c", "", 2⟩] : List LogEntry).foldl (ringPush 2) []).length = 2 :=
  ⟨⟨by decide, by decide⟩,
    c3_ring_buffer_last_k 2 [⟨"a", "", 0⟩, ⟨"b", "", 1⟩, ⟨"c", "", 2⟩]
      (by decide) (by decide)⟩

/-! ## C4: the Log Store stores each append as a single entry -/

/-- Counterexample for C4: `addLog` does NOT split text on internal
newlines — a two-line chunk is stored as one entry holding the whole text,
not as the two entries the spec describes (`specSplitAppend`). -/
theorem c4_no_newline_split_cex :
    (SysState.addLog ⟨[⟨"P", "x", "c", none, [], []⟩], [], 100⟩
        (initSys ⟨[⟨"P", "x", "c", none, [], []⟩], [], 100⟩)
        "P" "line1\nline2" "c").logBuffers "P" =
      [⟨"line1\nline2", "c", 0⟩] ∧
    specSplitAppend 100
        ((initSys ⟨[⟨"P", "x", "c", none, [], []⟩], [], 100⟩).logBuffers "P")
        "line1\nline2" "c" 0 =
      [⟨"line1", "c", 0⟩, ⟨"line2", "c", 0⟩] ∧
    (SysState.addLog ⟨[⟨"P", "x", "c", none, [], []⟩], [], 100⟩
        (initSys ⟨[⟨"P", "x", "c", none, [], []⟩], [], 100⟩)
        "P" "line1\nline2" "c").logBuffers "P" ≠
      specSplitAppend 100
        ((initSys ⟨[⟨"P", "x", "c", none, [], []⟩], [], 100⟩).logBuffers "P")
        "line1\nline2" "c" 0 := by
  refine ⟨?_, ?_, ?_⟩ <;> decide

/-- C4 (amended): every `append(name, text, color)` pushes exactly one
entry holding the whole text (newlines included) onto `name`'s ring buffer
and leaves every other buffer untouched; splitting on newlines happens only
in the display path, never in the Log Store. -/
theorem c4_append_pushes_whole_text (cfg : Config) (st : SysState)
    (n text color : String) :
    (SysState.addLog cfg st n text color).logBuffers n =
      ringPush cfg.maxLogsPerProcess (st.logBuffers n) ⟨text, color, st.clock⟩ ∧
    ∀ m, m ≠ n → (SysState.addLog cfg st n text color).logBuffers m = st.logBuffers m := by
  constructor
  · simp [SysState.addLog, upd]
  · intro m hm
    simp [SysState.addLog, upd, hm]

/-- Witness for C4's amended theorem at a concrete input. -/
theorem c4_append_pushes_whole_text_witness :
    ("Q" ≠ "P") ∧
    (SysState.addLog ⟨[], [], 3⟩
        { processes := fun _ => none, processStates := fun _ => none
          dependencyReady := fun _ _ => false, pendingProcesses := []
          logBuffers := fun _ => [], nextPid := 0, clock := 7 }
        "P" "a\nb" "c").logBuffers "Q" = [] := by
  refine ⟨by decide, ?_⟩
  have h := c4_append_pushes_whole_text ⟨[], [], 3⟩
    { processes := fun _ => none, processStates := fun _ => none
      dependencyReady := fun _ _ => false, pendingProcesses := []
      logBuffers := fun _ => [], nextPid := 0, clock := 7 }
    "P" "a\nb" "c"
  exact h.2 "Q" (by decide)

/-! ## C6: search-mode Enter / Escape -/

/-- Counterexample for C6: with an active search text "old" and edit buffer
"new", Enter commits the buffer but does NOT leave edit mode, and Escape
clears the previously active search text instead of preserving it. -/
theorem c6_search_keys_cex :
    (handleSearchKey ⟨true, "old", "new"⟩ Key.enter).searchMode = true ∧
    (handleSearchKey ⟨true, "old", "new"⟩ Key.escape).searchText = "" ∧
    ¬((handleSearchKey ⟨true, "old", "new"⟩ Key.enter).searchMode = false ∧
      (handleSearchKey ⟨true, "old", "new"⟩ Key.escape).searchText = "old") := by
  refine ⟨by decide, by decide, ?_⟩
  intro h
  exact absurd h.1 (by decide)

/-- C6 (amended): while search mode is active, Enter commits the edit
buffer as the active search text and stays in edit mode; Escape exits edit
mode and clears both the edit buffer and the previously active search
text. -/
theorem c6_search_keys (st : SearchState) (h : st.searchMode = true) :
    handleSearchKey st Key.enter =
      { searchMode := true, searchText := st.searchBuffer, searchBuffer := st.searchBuffer } ∧
    handleSearchKey st Key.escape =
      { searchMode := false, searchText := "", searchBuffer := "" } := by
  cases st
  simp only at h
  subst h
  constructor
  · simp [handleSearchKey]
  · simp [handleSearchKey, toggleSearch]

/-- Witness for C6's amended theorem. -/
theorem c6_search_keys_witness :
    ((⟨true, "old", "new"⟩ : SearchState).searchMode = true) ∧
    handleSearchKey ⟨true, "old", "new"⟩ Key.enter =
      ⟨true, "new", "new"⟩ ∧
    handleSearchKey ⟨true, "old", "new"⟩ Key.escape = ⟨false, "", ""⟩ :=
  ⟨rfl, c6_search_keys ⟨true, "old", "new"⟩ rfl⟩

/-! ## C8: filter navigation -/

theorem getD_mem :
    ∀ (l : List (Option String)) (k : Nat), k < l.length → l.getD k none ∈ l := by
  intro l
  induction l with
  | nil => intro k hk; simp at hk
  | cons a rest ih =>
    intro k hk
    cases k with
    | zero => simp
    | succ j =>
      simp only [List.getD_cons_succ]
      exact List.mem_cons_of_mem a (ih j (by simpa using hk))

theorem jsIndexOf_spec_mem :
    ∀ (l : List (Option String)) (x : Option String), x ∈ l →
      ∃ k : Nat, jsIndexOf x l = (k : Int) ∧ k < l.length ∧ l.getD k none = x := by
  intro l
  induction l with
  | nil => intro x hx; simp at hx
  | cons a rest ih =>
    intro x hx
    by_cases ha : a = x
    · exact ⟨0, by simp [jsIndexOf, ha], by simp, by simpa using ha⟩
    · have hxr : x ∈ rest := by
        cases List.mem_cons.mp hx with
        | inl h => exact absurd h.symm ha
        | inr h => exact h
      obtain ⟨k, hk1, hk2, hk3⟩ := ih x hxr
      refine ⟨k + 1, ?_, by simpa using hk2, by simpa using hk3⟩
      simp only [jsIndexOf, if_neg ha, hk1]
      rw [if_neg (by omega)]
      push_cast
      ring

theorem jsIndexOf_getD (l : List (Option String)) (hnd : l.Nodup) :
    ∀ k : Nat, k < l.length → jsIndexOf (l.getD k none) l = (k : Int) := by
  induction l with
  | nil => intro k hk; simp at hk
  | cons a rest ih =>
    intro k hk
    cases k with
    | zero => simp [jsIndexOf]
    | succ j =>
      have hjr : j < rest.length := by simpa using hk
      have hmem : rest.getD j none ∈ rest := getD_mem rest j hjr
      have hne : ¬(a = rest.getD j none) := by
        intro h
        exact (List.nodup_cons.mp hnd).1 (h ▸ hmem)
      simp only [List.getD_cons_succ, jsIndexOf, if_neg hne]
      rw [ih (List.nodup_cons.mp hnd).2 j hjr]
      rw [if_neg (by omega)]
      push_cast
      ring

theorem navDown_mem (l : List (Option String)) (x : Option String) (hx : x ∈ l) :
    navigateFilter l Direction.down x ∈ l := by
  obtain ⟨k, hk1, hk2, hk3⟩ := jsIndexOf_spec_mem l x hx
  simp only [navigateFilter, hk1]
  by_cases h : (k : Int) < (l.length : Int) - 1
  · rw [if_pos h]
    have : ((k : Int) + 1).toNat = k + 1 := by omega
    simp only [getAt, this]
    exact getD_mem l (k + 1) (by omega)
  · rw [if_neg h]
    simp only [getAt, Int.toNat_zero]
    exact getD_mem l 0 (by omega)

theorem nav_up_down (l : List (Option String)) (hnd : l.Nodup) (x : Option String)
    (hx : x ∈ l) : navigateFilter l Direction.up (navigateFilter l Direction.down x) = x := by
  obtain ⟨k, hk1, hk2, hk3⟩ := jsIndexOf_spec_mem l x hx
  by_cases h : (k : Int) < (l.length : Int) - 1
  · have hdown : navigateFilter l Direction.down x = l.getD (k + 1) none := by
      simp only [navigateFilter, hk1, if_pos h]
      have : ((k : Int) + 1).toNat = k + 1 := by omega
      simp [getAt, this]
    rw [hdown]
    have hidx : jsIndexOf (l.getD (k + 1) none) l = ((k + 1 : Nat) : Int) :=
      jsIndexOf_getD l hnd (k + 1) (by omega)
    simp only [navigateFilter, hidx]
    rw [if_pos (by push_cast; omega)]
    have htn : (((k + 1 : Nat) : Int) - 1).toNat = k := by omega
    simp only [getAt, htn]
    exact hk3
  · have hklast : k = l.length - 1 := by omega
    have hlen : 1 ≤ l.length := by omega
    have hdown : navigateFilter l Direction.down x = l.getD 0 none := by
      simp only [navigateFilter, hk1, if_neg h]
      simp [getAt]
    rw [hdown]
    have hidx : jsIndexOf (l.getD 0 none) l = ((0 : Nat) : Int) :=
      jsIndexOf_getD l hnd 0 (by omega)
    simp only [navigateFilter, hidx]
    rw [if_neg (by norm_num)]
    have hik : ((l.length : Int) - 1).toNat = k := by omega
    simp only [getAt, hik]
    exact hk3

theorem navDown_iter_mem (l : List (Option String)) (x : Option String) (hx : x ∈ l) :
    ∀ n : Nat, Nat.iterate (navigateFilter l Direction.down) n x ∈ l := by
  intro n
  induction n with
  | zero => exact hx
  | succ m ihm =>
    rw [Function.iterate_succ_apply']
    exact navDown_mem l _ ihm

theorem nav_updown_iter (l : List (Option String)) (hnd : l.Nodup) :
    ∀ (N : Nat) (x : Option String), x ∈ l →
      Nat.iterate (navigateFilter l Direction.up) N
        (Nat.iterate (navigateFilter l Direction.down) N x) = x := by
  intro N
  induction N with
  | zero => intro x _; rfl
  | succ n ih =>
    intro x hx
    rw [Function.iterate_succ_apply, Function.iterate_succ_apply']
    rw [nav_up_down l hnd _ (navDown_iter_mem l x hx n)]
    exact ih x hx

/-- C8: on a duplicate-free flattened filter-item list (command names are
unique and group tokens carry the `group:` prefix), walking down N times
then up N times from the ALL (null) selection returns to ALL; moving up
from the first item wraps to the last, and moving down from the last wraps
to the first. -/
theorem c8_filter_navigation (groups : List Group) (cmds : List Command) (N : Nat)
    (hnd : (buildItems groups cmds).Nodup) :
    Nat.iterate (navigateFilter (buildItems groups cmds) Direction.up) N
      (Nat.iterate (navigateFilter (buildItems groups cmds) Direction.down) N none) =
      none ∧
    navigateFilter (buildItems groups cmds) Direction.up none =
      getAt (buildItems groups cmds) (((buildItems groups cmds).length : Int) - 1) ∧
    ∀ x ∈ buildItems groups cmds,
      jsIndexOf x (buildItems groups cmds) = ((buildItems groups cmds).length : Int) - 1 →
      navigateFilter (buildItems groups cmds) Direction.down x = none := by
  refine ⟨?_, ?_, ?_⟩
  · exact nav_updown_iter (buildItems groups cmds) hnd N none (by simp [buildItems])
  · have h0 : jsIndexOf none (buildItems groups cmds) = 0 := by
      simp [buildItems, jsIndexOf]
    simp only [navigateFilter, h0]
    rw [if_neg (by omega)]
  · intro x _ hlast
    simp only [navigateFilter, hlast]
    rw [if_neg (by omega)]
    simp [getAt, buildItems]

/-- Witness for C8 on a concrete two-group configuration and N = 5. -/
theorem c8_filter_navigation_witness :
    ((buildItems [⟨"G", "c", ["A"]⟩]
        [⟨"A", "x", "c", some "G", [], []⟩, ⟨"B", "y", "c", none, [], []⟩]).Nodup) ∧
    Nat.iterate
      (navigateFilter (buildItems [⟨"G", "c", ["A"]⟩]
        [⟨"A", "x", "c", some "G", [], []⟩, ⟨"B", "y", "c", none, [], []⟩]) Direction.up) 5
      (Nat.iterate
        (navigateFilter (buildItems [⟨"G", "c", ["A"]⟩]
          [⟨"A", "x", "c", some "G", [], []⟩, ⟨"B", "y", "c", none, [], []⟩]) Direction.down) 5
        none) = none := by
  have h := c8_filter_navigation [⟨"G", "c", ["A"]⟩]
    [⟨"A", "x", "c", some "G", [], []⟩, ⟨"B", "y", "c", none, [], []⟩] 5 (by decide)
  exact ⟨by decide, h.1⟩

/-! ## C9: a failed flush permanently disables file logging -/

theorem runLogOps_disabled :
    ∀ (ops : List LogOp) (st : FileLogState), st.logFile = none →
      st.flushTimerActive = false →
      (runLogOps st ops).logFile = none ∧
      (runLogOps st ops).flushTimerActive = false ∧
      (runLogOps st ops).logBuffers =
        (ops.foldl (memStep st.maxLogsPerProcess) (st.logBuffers, st.clock)).1 := by
  intro ops
  induction ops with
  | nil => intro st hf ht; exact ⟨hf, ht, rfl⟩
  | cons op rest ih =>
    intro st hf ht
    have hstep : stepLog st op =
        { st with
          logBuffers := ((memStep st.maxLogsPerProcess (st.logBuffers, st.clock) op).1)
          clock := ((memStep st.maxLogsPerProcess (st.logBuffers, st.clock) op).2) } := by
      cases op with
      | append w n d c =>
        simp only [stepLog, fileAddLog, memStep]
        rw [hf]
      | flush w =>
        simp only [stepLog, flushLogs, memStep]
        rw [if_pos (Or.inr (Or.inr hf))]
    have := ih (stepLog st op) (by rw [hstep]; exact hf) (by rw [hstep]; exact ht)
    simp only [runLogOps, List.foldl_cons] at this ⊢
    refine ⟨this.1, this.2.1, ?_⟩
    rw [this.2.2, hstep]

/-- C9: a disk-write failure during a flush clears the log-file path and
cancels the flush timer; no later operation re-enables either, and the
in-memory ring buffers evolve exactly as the pure in-memory semantics for
every subsequent append. -/
theorem c9_flush_failure_disables (st : FileLogState) (f : String)
    (hw : st.isWritingLogs = false) (hq : st.logQueue ≠ []) (hf : st.logFile = some f) :
    (flushLogs false st).logFile = none ∧
    (flushLogs false st).flushTimerActive = false ∧
    (flushLogs false st).logBuffers = st.logBuffers ∧
    ∀ ops : List LogOp,
      (runLogOps (flushLogs false st) ops).logFile = none ∧
      (runLogOps (flushLogs false st) ops).flushTimerActive = false ∧
      (runLogOps (flushLogs false st) ops).logBuffers =
        (ops.foldl (memStep st.maxLogsPerProcess) (st.logBuffers, st.clock)).1 := by
  have hff : flushLogs false st =
      { st with logQueue := [], logFile := none, flushTimerActive := false } := by
    simp only [flushLogs]
    rw [if_neg (by simp [hw, hq, hf]), if_neg (by decide)]
  refine ⟨by rw [hff], by rw [hff], by rw [hff], ?_⟩
  intro ops
  have := runLogOps_disabled ops (flushLogs false st) (by rw [hff]) (by rw [hff])
  refine ⟨this.1, this.2.1, ?_⟩
  rw [this.2.2, hff]

/-- Witness for C9 at a concrete state with one queued line. -/
theorem c9_flush_failure_disables_witness :
    (({ logBuffers := fun _ => [], maxLogsPerProcess := 5, logFile := some "out.log"
        logQueue := [("P", "hello", 0)], isWritingLogs := false
        flushTimerActive := true, clock := 1 } : FileLogState).isWritingLogs = false) ∧
    (flushLogs false
      { logBuffers := fun _ => [], maxLogsPerProcess := 5, logFile := some "out.log"
        logQueue := [("P", "hello", 0)], isWritingLogs := false
        flushTimerActive := true, clock := 1 }).logFile = none ∧
    (runLogOps (flushLogs false
      { logBuffers := fun _ => [], maxLogsPerProcess := 5, logFile := some "out.log"
        logQueue := [("P", "hello", 0)], isWritingLogs := false
        flushTimerActive := true, clock := 1 })
      [LogOp.append true "P" "later" "c"]).logBuffers "P" =
      [⟨"later", "c", 1⟩] := by
  have h := c9_flush_failure_disables
    { logBuffers := fun _ => [], maxLogsPerProcess := 5, logFile := some "out.log"
      logQueue := [("P", "hello", 0)], isWritingLogs := false
      flushTimerActive := true, clock := 1 } "out.log" rfl (by decide) rfl
  refine ⟨rfl, h.1, ?_⟩
  rw [(h.2.2.2 [LogOp.append true "P" "later" "c"]).2.2]
  decide

/-! ## C10: every configured command starts out in state "running" -/

theorem initStates_running (l : List Command) :
    ∀ (m : String → Option PState) (n : String),
      (l.foldl (fun m c => upd m c.name (some PState.running)) m) n =
        if n ∈ l.map Command.name then some PState.running else m n := by
  induction l with
  | nil => intro m n; simp
  | cons c rest ih =>
    intro m n
    rw [List.foldl_cons, ih]
    by_cases hr : n ∈ rest.map Command.name
    · simp [hr]
    · by_cases hc : n = c.name
      · simp [hr, hc, upd]
      · simp [hr, hc, upd]

/-- C10: at construction, before anything is spawned, every configured
command's state is "running" (not "stopped") and no handle is tracked; in
particular the group all-running check over never-started configured
members reports true. -/
theorem c10_constructor_initial_state (cfg : Config) :
    (∀ c ∈ cfg.commands,
      (initSys cfg).processStates c.name = some PState.running ∧
      (initSys cfg).processes c.name = none) ∧
    ∀ g : Group, (∀ m ∈ g.commands, m ∈ cfg.commands.map Command.name) →
      groupAllRunning (initSys cfg) g = true := by
  constructor
  · intro c hc
    constructor
    · show (cfg.commands.foldl (fun m c => upd m c.name (some PState.running))
        (fun _ => none)) c.name = some PState.running
      rw [initStates_running]
      simp [List.mem_map]
      exact ⟨c, hc, rfl⟩
    · rfl
  · intro g hg
    simp only [groupAllRunning, List.all_eq_true]
    intro m hm
    have : (initSys cfg).processStates m = some PState.running := by
      show (cfg.commands.foldl (fun m c => upd m c.name (some PState.running))
        (fun _ => none)) m = some PState.running
      rw [initStates_running]
      simp [hg m hm]
    simp [this]

/-- Witness for C10. -/
theorem c10_constructor_initial_state_witness :
    ((⟨"A", "cmd", "c", none, [], []⟩ : Command) ∈
      (⟨[⟨"A", "cmd", "c", none, [], []⟩], [⟨"G", "c", ["A"]⟩], 10⟩ : Config).commands) ∧
    (initSys ⟨[⟨"A", "cmd", "c", none, [], []⟩], [⟨"G", "c", ["A"]⟩], 10⟩).processStates "A" =
      some PState.running ∧
    groupAllRunning (initSys ⟨[⟨"A", "cmd", "c", none, [], []⟩], [⟨"G", "c", ["A"]⟩], 10⟩)
      ⟨"G", "c", ["A"]⟩ = true := by
  have h := c10_constructor_initial_state
    ⟨[⟨"A", "cmd", "c", none, [], []⟩], [⟨"G", "c", ["A"]⟩], 10⟩
  refine ⟨by decide, ?_, ?_⟩
  · exact (h.1 ⟨"A", "cmd", "c", none, [], []⟩ (by decide)).1
  · exact h.2 ⟨"G", "c", ["A"]⟩ (by intro m hm; simp at hm; simp [hm])

end Sinfonia

namespace Sinfonia

/-! ## C7: toggling twice -/

theorem addLog_processes (cfg : Config) (st : SysState) (n d c : String) :
    (SysState.addLog cfg st n d c).processes = st.processes := rfl

theorem addLog_processStates (cfg : Config) (st : SysState) (n d c : String) :
    (SysState.addLog cfg st n d c).processStates = st.processStates := rfl

theorem addLog_dependencyReady (cfg : Config) (st : SysState) (n d c : String) :
    (SysState.addLog cfg st n d c).dependencyReady = st.dependencyReady := rfl

theorem addLog_nextPid (cfg : Config) (st : SysState) (n d c : String) :
    (SysState.addLog cfg st n d c).nextPid = st.nextPid := rfl

theorem addLog_clock (cfg : Config) (st : SysState) (n d c : String) :
    (SysState.addLog cfg st n d c).clock = st.clock + 1 := rfl

/-- Counterexample for C7: `P` is running with a tracked handle, but its
dependency `D` is stopped, so the second toggle parks `P` in the pending
set instead of restarting it: after two toggles `P` is stopped, and the
second call logged two entries (three in total across both calls). -/
theorem c7_toggle_twice_cex :
    (stPD.processes "P").isSome = true ∧
    stPD.processStates "P" = some PState.running ∧
    (toggleProcess cfgPD (toggleProcess cfgPD stPD "P") "P").processStates "P" =
      some PState.stopped ∧
    ((toggleProcess cfgPD (toggleProcess cfgPD stPD "P") "P").logBuffers "P").length = 3 := by
  refine ⟨by decide, by decide, by decide, by decide⟩

/-- C7 (amended): for a process Running with a tracked handle whose
dependency check passes (and which is not its own dependency), two toggles
return it to Running — with a freshly spawned handle, since the stop does
not clear the tracked handle — and each toggle call appends exactly one
log entry ("Process stopped", then "Process started"); if the dependency
check fails at the second toggle the process instead stays Stopped and the
second call appends two entries. -/
theorem c7_toggle_twice_running (cfg : Config) (st : SysState) (name : String) (p : Nat)
    (cmd : Command)
    (hproc : st.processes name = some p)
    (hrun : st.processStates name = some PState.running)
    (hfind : findCommand cfg name = some cmd)
    (hdeps : cmd.dependsOn.filter (fun dep => unreadySP st name cmd dep) = [])
    (hself : name ∉ cmd.dependsOn) :
    (toggleProcess cfg (toggleProcess cfg st name) name).processStates name =
      some PState.running ∧
    (toggleProcess cfg (toggleProcess cfg st name) name).processes name =
      some st.nextPid ∧
    (toggleProcess cfg (toggleProcess cfg st name) name).logBuffers name =
      ringPush cfg.maxLogsPerProcess
        (ringPush cfg.maxLogsPerProcess (st.logBuffers name)
          ⟨"Process stopped", colorOf cfg name, st.clock⟩)
        ⟨"Process started", colorOf cfg name, st.clock + 1⟩ := by
  have h1 : toggleProcess cfg st name =
      SysState.addLog cfg
        { st with processStates := upd st.processStates name (some PState.stopped) }
        name "Process stopped" (colorOf cfg name) := by
    unfold toggleProcess
    rw [hproc]
    simp [hrun]
  set st1 := SysState.addLog cfg
    { st with processStates := upd st.processStates name (some PState.stopped) }
    name "Process stopped" (colorOf cfg name) with hst1
  have h1proc : st1.processes name = some p := by
    rw [hst1, addLog_processes]
    exact hproc
  have h1state : st1.processStates name = some PState.stopped := by
    rw [hst1, addLog_processStates]
    simp [upd]
  have hfilter : cmd.dependsOn.filter (fun dep => unreadySP st1 name cmd dep) = [] := by
    have hcg : cmd.dependsOn.filter (fun dep => unreadySP st1 name cmd dep) =
        cmd.dependsOn.filter (fun dep => unreadySP st name cmd dep) := by
      apply List.filter_congr
      intro dep hdep
      have hne : dep ≠ name := fun h => hself (h ▸ hdep)
      simp only [unreadySP, hst1, addLog_processStates, addLog_dependencyReady]
      simp [upd, hne]
    rw [hcg]
    exact hdeps
  have hsp : startProcess cfg st1 name =
      { st1 with
        processes := upd st1.processes name (some st1.nextPid)
        processStates := upd st1.processStates name (some PState.running)
        nextPid := st1.nextPid + 1 } := by
    unfold startProcess
    rw [hfind]
    simp only [hfilter]
    rw [if_neg (by intro h; exact h.2 rfl)]
  have h2 : toggleProcess cfg st1 name =
      SysState.addLog cfg (startProcess cfg st1 name) name "Process started"
        (colorOf cfg name) := by
    unfold toggleProcess
    rw [h1proc, h1state]
    simp
  have hnp : st1.nextPid = st.nextPid := by
    rw [hst1]
    rfl
  have hck : st1.clock = st.clock + 1 := by
    rw [hst1]
    rfl
  have hbuf : st1.logBuffers name =
      ringPush cfg.maxLogsPerProcess (st.logBuffers name)
        ⟨"Process stopped", colorOf cfg name, st.clock⟩ := by
    rw [hst1]
    simp [SysState.addLog, upd]
  rw [h1, h2, hsp]
  refine ⟨?_, ?_, ?_⟩
  · show upd st1.processStates name (some PState.running) name = some PState.running
    simp [upd]
  · show upd st1.processes name (some st1.nextPid) name = some st.nextPid
    simp [upd, hnp]
  · show upd st1.logBuffers name
        (ringPush cfg.maxLogsPerProcess (st1.logBuffers name)
          ⟨"Process started", colorOf cfg name, st1.clock⟩) name =
      ringPush cfg.maxLogsPerProcess
        (ringPush cfg.maxLogsPerProcess (st.logBuffers name)
          ⟨"Process stopped", colorOf cfg name, st.clock⟩)
        ⟨"Process started", colorOf cfg name, st.clock + 1⟩
    rw [show upd st1.logBuffers name
        (ringPush cfg.maxLogsPerProcess (st1.logBuffers name)
          ⟨"Process started", colorOf cfg name, st1.clock⟩) name =
      ringPush cfg.maxLogsPerProcess (st1.logBuffers name)
        ⟨"Process started", colorOf cfg name, st1.clock⟩ from by simp [upd]]
    rw [hbuf, hck]

/-- Witness for C7's amended theorem on the dependency-free fixture. -/
theorem c7_toggle_twice_running_witness :
    (stA.processes "A" = some 0 ∧
      stA.processStates "A" = some PState.running ∧
      findCommand cfgA "A" = some ⟨"A", "run-a", "c", none, [], []⟩ ∧
      ("A" ∉ (⟨"A", "run-a", "c", none, [], []⟩ : Command).dependsOn)) ∧
    (toggleProcess cfgA (toggleProcess cfgA stA "A") "A").processStates "A" =
      some PState.running ∧
    (toggleProcess cfgA (toggleProcess cfgA stA "A") "A").processes "A" =
      some stA.nextPid ∧
    (toggleProcess cfgA (toggleProcess cfgA stA "A") "A").logBuffers "A" =
      ringPush cfgA.maxLogsPerProcess
        (ringPush cfgA.maxLogsPerProcess (stA.logBuffers "A")
          ⟨"Process stopped", colorOf cfgA "A", stA.clock⟩)
        ⟨"Process started", colorOf cfgA "A", stA.clock + 1⟩ :=
  ⟨⟨by decide, by decide, by decide, by decide⟩,
    c7_toggle_twice_running cfgA stA "A" 0 ⟨"A", "run-a", "c", none, [], []⟩
      (by decide) (by decide) (by decide) (by decide) (by decide)⟩

end Sinfonia

namespace Sinfonia

/-! ## C5: group toggle -/

theorem startProcess_frame (cfg : Config) (acc : SysState) (x n : String) (hne : n ≠ x) :
    (startProcess cfg acc x).processes n = acc.processes n ∧
    (startProcess cfg acc x).processStates n = acc.processStates n ∧
    acc.nextPid ≤ (startProcess cfg acc x).nextPid := by
  unfold startProcess
  cases hf : findCommand cfg x with
  | none => exact ⟨rfl, rfl, le_refl _⟩
  | some cmd =>
    dsimp only
    by_cases hc : cmd.dependsOn ≠ [] ∧
        (cmd.dependsOn.filter (fun dep => unreadySP acc x cmd dep)) ≠ []
    · rw [if_pos hc]
      exact ⟨rfl, rfl, le_refl _⟩
    · rw [if_neg hc]
      refine ⟨?_, ?_, ?_⟩
      · simp [upd, hne]
      · simp [upd, hne]
      · exact Nat.le_succ _

theorem toggleGroupStep_frame (cfg : Config) (allR : Bool) (acc : SysState) (x n : String)
    (hne : n ≠ x) :
    (toggleGroupStep cfg allR acc x).processes n = acc.processes n ∧
    (toggleGroupStep cfg allR acc x).processStates n = acc.processStates n ∧
    acc.nextPid ≤ (toggleGroupStep cfg allR acc x).nextPid := by
  unfold toggleGroupStep
  cases allR with
  | true =>
    by_cases hp : (acc.processes x).isSome = true
    · rw [if_pos rfl, if_pos hp]
      refine ⟨rfl, ?_, le_refl _⟩
      show upd acc.processStates x (some PState.stopped) n = acc.processStates n
      simp [upd, hne]
    · rw [if_pos rfl, if_neg hp]
      exact ⟨rfl, rfl, le_refl _⟩
  | false =>
    rw [if_neg (by simp)]
    have h := startProcess_frame cfg acc x n hne
    exact ⟨h.1, h.2.1, h.2.2⟩

theorem toggleGroup_fold_frame (cfg : Config) (allR : Bool) :
    ∀ (l : List String) (acc : SysState) (n : String), n ∉ l →
      (l.foldl (toggleGroupStep cfg allR) acc).processes n = acc.processes n ∧
      (l.foldl (toggleGroupStep cfg allR) acc).processStates n = acc.processStates n ∧
      acc.nextPid ≤ (l.foldl (toggleGroupStep cfg allR) acc).nextPid := by
  intro l
  induction l with
  | nil => intro acc n _; exact ⟨rfl, rfl, le_refl _⟩
  | cons x rest ih =>
    intro acc n hn
    have hne : n ≠ x := fun h => hn (h ▸ List.mem_cons_self x rest)
    have hrest : n ∉ rest := fun h => hn (List.mem_cons_of_mem x h)
    have hstep := toggleGroupStep_frame cfg allR acc x n hne
    have hfold := ih (toggleGroupStep cfg allR acc x) n hrest
    rw [List.foldl_cons]
    exact ⟨hfold.1.trans hstep.1, hfold.2.1.trans hstep.2.1,
      hstep.2.2.trans hfold.2.2⟩

theorem toggleGroup_fold_start (cfg : Config) :
    ∀ (l : List String) (acc : SysState) (m : String), l.Nodup → m ∈ l →
      ∀ cmd : Command, findCommand cfg m = some cmd → cmd.dependsOn = [] →
      ∃ p, acc.nextPid ≤ p ∧
        (l.foldl (toggleGroupStep cfg false) acc).processes m = some p ∧
        (l.foldl (toggleGroupStep cfg false) acc).processStates m = some PState.running := by
  intro l
  induction l with
  | nil => intro acc m _ hm; exact absurd hm (List.not_mem_nil m)
  | cons x rest ih =>
    intro acc m hnd hm cmd hfind hdeps
    rw [List.foldl_cons]
    rcases List.mem_cons.mp hm with heq | hmem
    · subst heq
      have hspawn : startProcess cfg acc m =
          { acc with
            processes := upd acc.processes m (some acc.nextPid)
            processStates := upd acc.processStates m (some PState.running)
            nextPid := acc.nextPid + 1 } := by
        unfold startProcess
        rw [hfind]
        dsimp only
        rw [if_neg (by rw [hdeps]; intro h; exact h.1 rfl)]
      have hstep1 : (toggleGroupStep cfg false acc m).processes m = some acc.nextPid := by
        unfold toggleGroupStep
        rw [if_neg (by simp), hspawn]
        show upd acc.processes m (some acc.nextPid) m = some acc.nextPid
        simp [upd]
      have hstep2 : (toggleGroupStep cfg false acc m).processStates m =
          some PState.running := by
        unfold toggleGroupStep
        rw [if_neg (by simp), hspawn]
        show upd acc.processStates m (some PState.running) m = some PState.running
        simp [upd]
      have hnotrest : m ∉ rest := (List.nodup_cons.mp hnd).1
      have hframe := toggleGroup_fold_frame cfg false rest
        (toggleGroupStep cfg false acc m) m hnotrest
      exact ⟨acc.nextPid, le_refl _, hframe.1.trans hstep1, hframe.2.1.trans hstep2⟩
    · have hne : m ≠ x := by
        intro h
        exact (List.nodup_cons.mp hnd).1 (h ▸ hmem)
      obtain ⟨p, hp1, hp2, hp3⟩ := ih (toggleGroupStep cfg false acc x) m
        (List.nodup_cons.mp hnd).2 hmem cmd hfind hdeps
      exact ⟨p, ((toggleGroupStep_frame cfg false acc x m hne).2.2).trans hp1, hp2, hp3⟩

theorem toggleGroup_fold_stop (cfg : Config) :
    ∀ (l : List String) (acc : SysState) (m : String), l.Nodup → m ∈ l →
      ((acc.processes m).isSome = true →
        (l.foldl (toggleGroupStep cfg true) acc).processStates m = some PState.stopped ∧
        (l.foldl (toggleGroupStep cfg true) acc).processes m = acc.processes m) ∧
      (acc.processes m = none →
        (l.foldl (toggleGroupStep cfg true) acc).processStates m = acc.processStates m ∧
        (l.foldl (toggleGroupStep cfg true) acc).processes m = none) := by
  intro l
  induction l with
  | nil => intro acc m _ hm; exact absurd hm (List.not_mem_nil m)
  | cons x rest ih =>
    intro acc m hnd hm
    rw [List.foldl_cons]
    rcases List.mem_cons.mp hm with heq | hmem
    · subst heq
      have hnotrest : m ∉ rest := (List.nodup_cons.mp hnd).1
      have hframe := toggleGroup_fold_frame cfg true rest
        (toggleGroupStep cfg true acc m) m hnotrest
      constructor
      · intro hp
        have hstep : (toggleGroupStep cfg true acc m).processStates m =
            some PState.stopped ∧
            (toggleGroupStep cfg true acc m).processes m = acc.processes m := by
          unfold toggleGroupStep
          rw [if_pos rfl, if_pos hp]
          refine ⟨?_, rfl⟩
          show upd acc.processStates m (some PState.stopped) m = some PState.stopped
          simp [upd]
        exact ⟨hframe.2.1.trans hstep.1, hframe.1.trans hstep.2⟩
      · intro hp
        have hstep : toggleGroupStep cfg true acc m = acc := by
          unfold toggleGroupStep
          rw [if_pos rfl, if_neg (by simp [hp])]
        rw [hstep] at hframe ⊢
        exact ⟨hframe.2.1, hframe.1.trans hp⟩
    · have hne : m ≠ x := by
        intro h
        exact (List.nodup_cons.mp hnd).1 (h ▸ hmem)
      have hstep := toggleGroupStep_frame cfg true acc x m hne
      have := ih (toggleGroupStep cfg true acc x) m (List.nodup_cons.mp hnd).2 hmem
      constructor
      · intro hp
        have := this.1 (by rw [hstep.1]; exact hp)
        exact ⟨this.1, this.2.trans hstep.1⟩
      · intro hp
        have := this.2 (by rw [hstep.1]; exact hp)
        exact ⟨this.1.trans hstep.2.1, this.2⟩

/-- Counterexample for C5: group `G` has `A` running (handle pid 0) and `B`
stopped, so not all members run; `toggleGroup` then calls the start path on
`A` as well, replacing its handle with a freshly spawned one — it does not
leave the already-running member untouched. -/
theorem c5_toggle_group_cex :
    stAB.processStates "A" = some PState.running ∧
    stAB.processes "A" = some 0 ∧
    (toggleGroup cfgAB stAB "G").processes "A" = some 5 ∧
    ¬((toggleGroup cfgAB stAB "G").processes "A" = stAB.processes "A") := by
  refine ⟨by decide, by decide, by decide, by decide⟩

/-- C5 (amended): if every member of `G` is in state Running, `toggleGroup`
stops every member that has a tracked handle (leaving handleless members
untouched); if at least one member is not Running, it invokes the start
path on every member — re-spawning the already-running members with a
fresh handle rather than leaving them untouched. -/
theorem c5_toggle_group (cfg : Config) (st : SysState) (gname : String) (g : Group)
    (hg : cfg.groups.find? (fun x => x.name = gname) = some g)
    (hnd : g.commands.Nodup) :
    (groupAllRunning st g = true →
      ∀ m ∈ g.commands,
        ((st.processes m).isSome = true →
          (toggleGroup cfg st gname).processStates m = some PState.stopped ∧
          (toggleGroup cfg st gname).processes m = st.processes m) ∧
        (st.processes m = none →
          (toggleGroup cfg st gname).processStates m = st.processStates m ∧
          (toggleGroup cfg st gname).processes m = none)) ∧
    (groupAllRunning st g = false →
      ∀ m ∈ g.commands, ∀ cmd : Command, findCommand cfg m = some cmd →
        cmd.dependsOn = [] →
        ∃ p, st.nextPid ≤ p ∧
          (toggleGroup cfg st gname).processes m = some p ∧
          (toggleGroup cfg st gname).processStates m = some PState.running) := by
  have htg : toggleGroup cfg st gname =
      g.commands.foldl (toggleGroupStep cfg (groupAllRunning st g)) st := by
    unfold toggleGroup
    rw [hg]
  constructor
  · intro hall m hm
    rw [htg, hall]
    exact toggleGroup_fold_stop cfg g.commands st m hnd hm
  · intro hall m hm cmd hfind hdeps
    rw [htg, hall]
    exact toggleGroup_fold_start cfg g.commands st m hnd hm cmd hfind hdeps

/-- Witness for C5's amended theorem: in `stAB` not all of `G` runs, so
both members get freshly spawned handles. -/
theorem c5_toggle_group_witness :
    (cfgAB.groups.find? (fun x => x.name = "G") = some ⟨"G", "c", ["A", "B"]⟩ ∧
      (["A", "B"] : List String).Nodup ∧
      groupAllRunning stAB ⟨"G", "c", ["A", "B"]⟩ = false ∧
      findCommand cfgAB "A" = some ⟨"A", "run-a", "c", none, [], []⟩) ∧
    ∃ p, stAB.nextPid ≤ p ∧
      (toggleGroup cfgAB stAB "G").processes "A" = some p ∧
      (toggleGroup cfgAB stAB "G").processStates "A" = some PState.running :=
  ⟨⟨by decide, by decide, by decide, by decide⟩,
    (c5_toggle_group cfgAB stAB "G" ⟨"G", "c", ["A", "B"]⟩ (by decide) (by decide)).2
      (by decide) "A" (by decide) ⟨"A", "run-a", "c", none, [], []⟩ (by decide) rfl⟩

end Sinfonia

namespace Sinfonia

/-! ## C2: topological sort helper lemmas -/

theorem append_singleton_split {α : Type} (l : List α) (c : α) :
    ∀ (l1 : List α) (x : α) (l2 : List α), l ++ [c] = l1 ++ x :: l2 →
      (∃ l2', l = l1 ++ x :: l2' ∧ l2 = l2' ++ [c]) ∨ (l1 = l ∧ x = c ∧ l2 = []) := by
  induction l with
  | nil =>
    intro l1 x l2 h
    cases l1 with
    | nil =>
      simp only [List.nil_append] at h
      injection h with h1 h2
      subst h1
      subst h2
      exact Or.inr ⟨rfl, rfl, rfl⟩
    | cons b l1' =>
      simp only [List.nil_append, List.cons_append] at h
      injection h with h1 h2
      simp at h2
  | cons a as ih =>
    intro l1 x l2 h
    cases l1 with
    | nil =>
      simp only [List.nil_append, List.cons_append] at h
      injection h with h1 h2
      subst h1
      subst h2
      exact Or.inl ⟨as, rfl, rfl⟩
    | cons b l1' =>
      simp only [List.cons_append] at h
      injection h with hab hrest
      subst hab
      rcases ih l1' x l2 hrest with ⟨l2', h1, h2⟩ | ⟨h1, h2, h3⟩
      · exact Or.inl ⟨l2', by rw [h1, List.cons_append], h2⟩
      · exact Or.inr ⟨by rw [h1], h2, h3⟩

theorem depsBefore_push (cmds : List Command) (l : List Command) (c : Command)
    (hl : depsBefore cmds l)
    (hc : ∀ dep ∈ c.dependsOn, (cmds.find? (fun x => x.name = dep)).isSome = true →
      dep ∈ l.map Command.name) :
    depsBefore cmds (l ++ [c]) := by
  intro l1 x l2 h dep hdep hfind
  rcases append_singleton_split l c l1 x l2 h with ⟨l2', h1, _⟩ | ⟨h1, h2, _⟩
  · exact hl l1 x l2' h1 dep hdep hfind
  · subst h1
    subst h2
    exact hc dep hdep hfind

theorem unvisitedCount_le_length (cmds : List Command) (v : List String) :
    unvisitedCount cmds v ≤ cmds.length :=
  List.length_filter_le _ _

theorem unvisitedCount_mono (cmds : List Command) (v1 v2 : List String)
    (h : ∀ x, x ∈ v1 → x ∈ v2) :
    unvisitedCount cmds v2 ≤ unvisitedCount cmds v1 := by
  unfold unvisitedCount
  induction cmds with
  | nil => simp
  | cons y rest ih =>
    simp only [List.filter_cons]
    by_cases h2 : y.name ∈ v2
    · rw [show decide (y.name ∉ v2) = false by simp [h2]]
      by_cases h1 : y.name ∈ v1
      · rw [show decide (y.name ∉ v1) = false by simp [h1]]
        simpa using ih
      · rw [show decide (y.name ∉ v1) = true by simp [h1]]
        simp only [if_false, if_true, Bool.false_eq_true, List.length_cons]
        exact Nat.le_succ_of_le ih
    · have h1 : y.name ∉ v1 := fun hx => h2 (h _ hx)
      rw [show decide (y.name ∉ v2) = true by simp [h2],
        show decide (y.name ∉ v1) = true by simp [h1]]
      simp only [if_true, List.length_cons]
      exact Nat.succ_le_succ ih

theorem unvisitedCount_cons_lt (cmds : List Command) (v : List String) (c : Command)
    (hc : c ∈ cmds) (hnv : c.name ∉ v) :
    unvisitedCount cmds (c.name :: v) < unvisitedCount cmds v := by
  induction cmds with
  | nil => cases hc
  | cons y rest ih =>
    unfold unvisitedCount
    simp only [List.filter_cons]
    rcases List.mem_cons.mp hc with heq | hcr
    · subst heq
      rw [show decide (c.name ∉ v) = true by simp [hnv]]
      rw [show decide (c.name ∉ c.name :: v) = false by simp]
      simp only [if_true, Bool.false_eq_true, if_false, List.length_cons]
      have := unvisitedCount_mono rest v (c.name :: v)
        (fun x hx => List.mem_cons_of_mem _ hx)
      unfold unvisitedCount at this
      omega
    · by_cases hy : y.name ∈ v
      · rw [show decide (y.name ∉ v) = false by simp [hy]]
        rw [show decide (y.name ∉ c.name :: v) = false by
          simp only [decide_eq_false_iff_not, Decidable.not_not]
          exact List.mem_cons_of_mem _ hy]
        simp only [Bool.false_eq_true, if_false]
        have := ih hcr
        unfold unvisitedCount at this
        exact this
      · by_cases hyc : y.name = c.name
        · rw [show decide (y.name ∉ v) = true by simp [hy]]
          rw [show decide (y.name ∉ c.name :: v) = false by simp [hyc]]
          simp only [if_true, Bool.false_eq_true, if_false, List.length_cons]
          have := unvisitedCount_mono rest v (c.name :: v)
            (fun x hx => List.mem_cons_of_mem _ hx)
          unfold unvisitedCount at this
          omega
        · rw [show decide (y.name ∉ v) = true by simp [hy]]
          rw [show decide (y.name ∉ c.name :: v) = true by simp [hyc, hy]]
          simp only [if_true, List.length_cons]
          have := ih hcr
          unfold unvisitedCount at this
          omega

end Sinfonia


namespace Sinfonia

theorem visit_spec (cmds : List Command) (rank : String → Nat)
    (hrank : ∀ c ∈ cmds, ∀ dep ∈ c.dependsOn,
      (cmds.find? (fun x => x.name = dep)).isSome = true → rank dep < rank c.name) :
    ∀ (fuel : Nat) (c : Command) (st : TopoState),
      c ∈ cmds →
      unvisitedCount cmds st.visited < fuel →
      topoInv cmds st →
      (∀ x ∈ st.visited, x ∉ st.sorted.map Command.name → rank c.name < rank x) →
      topoInv cmds (visit cmds fuel c st) ∧
      (∃ d, (visit cmds fuel c st).sorted = st.sorted ++ d) ∧
      (∀ x ∈ st.visited, x ∈ (visit cmds fuel c st).visited) ∧
      c.name ∈ (visit cmds fuel c st).sorted.map Command.name ∧
      (∀ x, (x ∈ (visit cmds fuel c st).visited ∧
             x ∉ (visit cmds fuel c st).sorted.map Command.name) ↔
            (x ∈ st.visited ∧ x ∉ st.sorted.map Command.name)) := by
  intro fuel
  induction fuel with
  | zero =>
    intro c st _ hfuel _ _
    exact absurd hfuel (Nat.not_lt_zero _)
  | succ f ihf =>
    intro c st hc hfuel hinv hpre
    by_cases hv : c.name ∈ st.visited
    · have hvisit : visit cmds (f + 1) c st = st := by
        simp [visit, hv]
      rw [hvisit]
      have hcs : c.name ∈ st.sorted.map Command.name := by
        by_contra hns
        exact lt_irrefl _ (hpre c.name hv hns)
      exact ⟨hinv, ⟨[], by simp⟩, fun x hx => hx, hcs, fun x => Iff.rfl⟩
    · have hvisit : visit cmds (f + 1) c st =
          ⟨(c.dependsOn.foldl (visitStep cmds (visit cmds f))
              ⟨c.name :: st.visited, st.sorted⟩).visited,
            (c.dependsOn.foldl (visitStep cmds (visit cmds f))
              ⟨c.name :: st.visited, st.sorted⟩).sorted ++ [c]⟩ := by
        simp [visit, hv]
      have hU1 : unvisitedCount cmds (c.name :: st.visited) < unvisitedCount cmds st.visited :=
        unvisitedCount_cons_lt cmds st.visited c hc hv
      have hfold : ∀ (ds : List String), (∀ d ∈ ds, d ∈ c.dependsOn) →
          ∀ (acc : TopoState), topoInv cmds acc →
          (∀ x, (x ∈ acc.visited ∧ x ∉ acc.sorted.map Command.name) ↔
                (x ∈ c.name :: st.visited ∧ x ∉ st.sorted.map Command.name)) →
          unvisitedCount cmds acc.visited ≤ unvisitedCount cmds (c.name :: st.visited) →
          topoInv cmds (ds.foldl (visitStep cmds (visit cmds f)) acc) ∧
          (∀ x, (x ∈ (ds.foldl (visitStep cmds (visit cmds f)) acc).visited ∧
                 x ∉ (ds.foldl (visitStep cmds (visit cmds f)) acc).sorted.map
                   Command.name) ↔
                (x ∈ c.name :: st.visited ∧ x ∉ st.sorted.map Command.name)) ∧
          (∀ x ∈ acc.visited, x ∈ (ds.foldl (visitStep cmds (visit cmds f)) acc).visited) ∧
          (∃ d0, (ds.foldl (visitStep cmds (visit cmds f)) acc).sorted =
            acc.sorted ++ d0) ∧
          unvisitedCount cmds (ds.foldl (visitStep cmds (visit cmds f)) acc).visited ≤
            unvisitedCount cmds (c.name :: st.visited) ∧
          (∀ dep ∈ ds, (cmds.find? (fun x => x.name = dep)).isSome = true →
            dep ∈ (ds.foldl (visitStep cmds (visit cmds f)) acc).sorted.map
              Command.name) := by
        intro ds
        induction ds with
        | nil =>
          intro _ acc hai hiff hu
          refine ⟨hai, hiff, fun x hx => hx, ⟨[], by simp⟩, hu, ?_⟩
          intro dep hdep
          exact absurd hdep (List.not_mem_nil dep)
        | cons dep ds' ihd =>
          intro hsub acc hai hiff hu
          rw [List.foldl_cons]
          cases hfind : cmds.find? (fun x => x.name = dep) with
          | none =>
            have hstep : visitStep cmds (visit cmds f) acc dep = acc := by
              simp [visitStep, hfind]
            rw [hstep]
            have hres := ihd (fun d hd => hsub d (List.mem_cons_of_mem _ hd)) acc hai hiff hu
            refine ⟨hres.1, hres.2.1, hres.2.2.1, hres.2.2.2.1, hres.2.2.2.2.1, ?_⟩
            intro dep' hdep' hsome
            rcases List.mem_cons.mp hdep' with heq | hdep's
            · subst heq
              rw [hfind] at hsome
              exact absurd hsome (by simp)
            · exact hres.2.2.2.2.2 dep' hdep's hsome
          | some depCmd =>
            have hstep : visitStep cmds (visit cmds f) acc dep =
                visit cmds f depCmd acc := by
              simp [visitStep, hfind]
            rw [hstep]
            have hdc : depCmd ∈ cmds := List.mem_of_find?_eq_some hfind
            have hdn : depCmd.name = dep := by
              have := List.find?_some hfind
              simpa using this
            have hdmem : dep ∈ c.dependsOn := hsub dep (List.mem_cons_self _ _)
            have hsome : (cmds.find? (fun x => x.name = dep)).isSome = true := by
              rw [hfind]
              rfl
            have hfuel' : unvisitedCount cmds acc.visited < f := by omega
            have hpre' : ∀ x ∈ acc.visited, x ∉ acc.sorted.map Command.name →
                rank depCmd.name < rank x := by
              intro x hx hnx
              have hxx := (hiff x).mp ⟨hx, hnx⟩
              rcases List.mem_cons.mp hxx.1 with heq | hxs
              · subst heq
                rw [hdn]
                exact hrank c hc dep hdmem hsome
              · exact lt_trans (hdn ▸ hrank c hc dep hdmem hsome) (hpre x hxs hxx.2)
            obtain ⟨pinv, pext, pvis, pname, piff⟩ := ihf depCmd acc hdc hfuel' hai hpre'
            have hu' : unvisitedCount cmds (visit cmds f depCmd acc).visited ≤
                unvisitedCount cmds (c.name :: st.visited) :=
              le_trans (unvisitedCount_mono cmds _ _ pvis) hu
            obtain ⟨qinv, qiff, qvis, qext, qu, qdeps⟩ :=
              ihd (fun d hd => hsub d (List.mem_cons_of_mem _ hd))
                (visit cmds f depCmd acc) pinv
                (fun x => (piff x).trans (hiff x)) hu'
            refine ⟨qinv, qiff, ?_, ?_, qu, ?_⟩
            · intro x hx
              exact qvis x (pvis x hx)
            · obtain ⟨d1, hd1⟩ := pext
              obtain ⟨d2, hd2⟩ := qext
              exact ⟨d1 ++ d2, by rw [hd2, hd1, List.append_assoc]⟩
            · intro dep' hdep' hsome'
              rcases List.mem_cons.mp hdep' with heq | hdep's
              · subst heq
                obtain ⟨d2, hd2⟩ := qext
                rw [hd2, List.map_append]
                exact List.mem_append_left _ (hdn ▸ pname)
              · exact qdeps dep' hdep's hsome'
      have hinv1 : topoInv cmds ⟨c.name :: st.visited, st.sorted⟩ := by
        refine ⟨hinv.1, ?_⟩
        intro x hx
        exact List.mem_cons_of_mem _ (hinv.2 x hx)
      obtain ⟨finv, fiff, fvis, fext, fu, fdeps⟩ :=
        hfold c.dependsOn (fun d hd => hd) ⟨c.name :: st.visited, st.sorted⟩
          hinv1 (fun x => Iff.rfl) (le_refl _)
      rw [hvisit]
      refine ⟨⟨?_, ?_⟩, ?_, ?_, ?_, ?_⟩
      · exact depsBefore_push cmds _ c finv.1 fdeps
      · intro x hx
        rcases List.mem_append.mp hx with hxl | hxr
        · exact finv.2 x hxl
        · have hxc : x = c := by simpa using hxr
          subst hxc
          exact fvis x.name (List.mem_cons_self _ _)
      · obtain ⟨d0, hd0⟩ := fext
        exact ⟨d0 ++ [c], by rw [hd0, List.append_assoc]⟩
      · intro x hx
        exact fvis x (List.mem_cons_of_mem _ hx)
      · rw [List.map_append]
        exact List.mem_append_right _ (by simp)
      · intro x
        constructor
        · rintro ⟨hxv, hxn⟩
          rw [List.map_append] at hxn
          have hxn2 : x ∉ (c.dependsOn.foldl (visitStep cmds (visit cmds f))
              ⟨c.name :: st.visited, st.sorted⟩).sorted.map Command.name :=
            fun hmem => hxn (List.mem_append_left _ hmem)
          have hxc : x ≠ c.name := fun heq =>
            hxn (List.mem_append_right _ (by simp [heq]))
          have hmm := (fiff x).mp ⟨hxv, hxn2⟩
          rcases List.mem_cons.mp hmm.1 with heq | hxs
          · exact absurd heq hxc
          · exact ⟨hxs, hmm.2⟩
        · rintro ⟨hxv, hxn⟩
          have hxc : x ≠ c.name := fun heq => hv (heq ▸ hxv)
          have hmm := (fiff x).mpr ⟨List.mem_cons_of_mem _ hxv, hxn⟩
          refine ⟨hmm.1, ?_⟩
          rw [List.map_append]
          intro hmem
          rcases List.mem_append.mp hmem with hml | hmr
          · exact hmm.2 hml
          · exact hxc (by simpa using hmr)

end Sinfonia

namespace Sinfonia

theorem sort_fold_spec (cmds : List Command) (rank : String → Nat)
    (hrank : ∀ c ∈ cmds, ∀ dep ∈ c.dependsOn,
      (cmds.find? (fun x => x.name = dep)).isSome = true → rank dep < rank c.name) :
    ∀ (l : List Command) (st : TopoState), (∀ c ∈ l, c ∈ cmds) →
      topoInv cmds st →
      (∀ x ∈ st.visited, x ∈ st.sorted.map Command.name) →
      topoInv cmds (l.foldl (fun st c => visit cmds (cmds.length + 1) c st) st) ∧
      (∀ x ∈ (l.foldl (fun st c => visit cmds (cmds.length + 1) c st) st).visited,
        x ∈ (l.foldl (fun st c => visit cmds (cmds.length + 1) c st) st).sorted.map
          Command.name) ∧
      (∃ d, (l.foldl (fun st c => visit cmds (cmds.length + 1) c st) st).sorted =
        st.sorted ++ d) ∧
      (∀ c ∈ l, c.name ∈
        (l.foldl (fun st c => visit cmds (cmds.length + 1) c st) st).sorted.map
          Command.name) := by
  intro l
  induction l with
  | nil =>
    intro st _ hinv hempty
    refine ⟨hinv, hempty, ⟨[], by simp⟩, ?_⟩
    intro c hc
    exact absurd hc (List.not_mem_nil c)
  | cons c l' ih =>
    intro st hl hinv hempty
    rw [List.foldl_cons]
    have hcin : c ∈ cmds := hl c (List.mem_cons_self _ _)
    have hfuel : unvisitedCount cmds st.visited < cmds.length + 1 :=
      Nat.lt_succ_of_le (unvisitedCount_le_length cmds st.visited)
    have hpre : ∀ x ∈ st.visited, x ∉ st.sorted.map Command.name →
        rank c.name < rank x := by
      intro x hx hnx
      exact absurd (hempty x hx) hnx
    obtain ⟨pinv, pext, pvis, pname, piff⟩ :=
      visit_spec cmds rank hrank (cmds.length + 1) c st hcin hfuel hinv hpre
    have hempty' : ∀ x ∈ (visit cmds (cmds.length + 1) c st).visited,
        x ∈ (visit cmds (cmds.length + 1) c st).sorted.map Command.name := by
      intro x hx
      by_contra hnx
      have := (piff x).mp ⟨hx, hnx⟩
      exact absurd (hempty x this.1) this.2
    obtain ⟨qinv, qempty, qext, qall⟩ :=
      ih (visit cmds (cmds.length + 1) c st)
        (fun c' hc' => hl c' (List.mem_cons_of_mem _ hc')) pinv hempty'
    refine ⟨qinv, qempty, ?_, ?_⟩
    · obtain ⟨d1, hd1⟩ := pext
      obtain ⟨d2, hd2⟩ := qext
      exact ⟨d1 ++ d2, by rw [hd2, hd1, List.append_assoc]⟩
    · intro c' hc'
      rcases List.mem_cons.mp hc' with heq | hc's
      · subst heq
        obtain ⟨d2, hd2⟩ := qext
        rw [hd2, List.map_append]
        exact List.mem_append_left _ pname
      · exact qall c' hc's

/-- C2: for every dependency graph admitting a rank function that strictly
decreases along dependency edges (the standard witness of acyclicity),
`sortCommandsByDependencies` places every command after all of its direct
dependencies (`depsBefore`: each entry's existing dependencies occur,
by name, in the preceding prefix), and every configured command appears in
the output. -/
theorem c2_topological_sort (cmds : List Command) (rank : String → Nat)
    (hrank : ∀ c ∈ cmds, ∀ dep ∈ c.dependsOn,
      (cmds.find? (fun x => x.name = dep)).isSome = true → rank dep < rank c.name) :
    depsBefore cmds (sortCommandsByDependencies cmds) ∧
    ∀ c ∈ cmds, c.name ∈ (sortCommandsByDependencies cmds).map Command.name := by
  have hd0 : depsBefore cmds (⟨[], []⟩ : TopoState).sorted := by
    intro l1 x l2 h dep hdep hf
    simp at h
  have h := sort_fold_spec cmds rank hrank cmds ⟨[], []⟩ (fun c hc => hc)
    ⟨hd0, fun x hx => absurd hx (List.not_mem_nil x)⟩
    (fun x hx => absurd hx (List.not_mem_nil x))
  unfold sortCommandsByDependencies
  exact ⟨h.1.1, h.2.2.2⟩

/-- Witness for C2 on the two-command chain `A` depends on `B`: the sort
yields `[B, A]` and the prefix before `A` indeed names `B`. -/
theorem c2_topological_sort_witness :
    (∀ c ∈ ([⟨"A", "a", "c", none, ["B"], []⟩,
             ⟨"B", "b", "c", none, [], []⟩] : List Command),
      ∀ dep ∈ c.dependsOn,
        (([⟨"A", "a", "c", none, ["B"], []⟩,
           ⟨"B", "b", "c", none, [], []⟩] : List Command).find?
            (fun x => x.name = dep)).isSome = true →
        (if dep = "B" then 0 else 1) < (if c.name = "B" then 0 else 1)) ∧
    sortCommandsByDependencies
        [⟨"A", "a", "c", none, ["B"], []⟩, ⟨"B", "b", "c", none, [], []⟩] =
      [⟨"B", "b", "c", none, [], []⟩, ⟨"A", "a", "c", none, ["B"], []⟩] ∧
    "B" ∈ ([(⟨"B", "b", "c", none, [], []⟩ : Command)]).map Command.name := by
  have h := c2_topological_sort
    [⟨"A", "a", "c", none, ["B"], []⟩, ⟨"B", "b", "c", none, [], []⟩]
    (fun n => if n = "B" then 0 else 1) (by decide)
  refine ⟨by decide, by decide, ?_⟩
  exact h.1 [⟨"B", "b", "c", none, [], []⟩] ⟨"A", "a", "c", none, ["B"], []⟩ []
    (by decide) "B" (by decide) (by decide)

end Sinfonia

namespace Sinfonia

/-! ## C1: the dependency-satisfaction check -/

theorem unready_eq (st : SysState) (n : String) (c : Command) (dp : String) :
    unreadySP st n c dp = unreadyRC st n c dp := by
  unfold unreadySP unreadyRC
  by_cases hr : st.processStates dp = some PState.running <;>
    cases hp : patTruthy c dp <;>
    cases hs : st.dependencyReady n (jsToLower dp) <;>
    simp [hr, hp, hs]

theorem unreadySP_false_iff (st : SysState) (n : String) (c : Command) (dp : String) :
    unreadySP st n c dp = false ↔
      (st.processStates dp = some PState.running ∧
        (patTruthy c dp = true → st.dependencyReady n (jsToLower dp) = true)) := by
  unfold unreadySP
  by_cases hr : st.processStates dp = some PState.running <;>
    cases hp : patTruthy c dp <;>
    cases hs : st.dependencyReady n (jsToLower dp) <;>
    simp [hr, hp, hs]

theorem runTrace_append (cfg : Config) (rmatch : String → String → Bool)
    (t : List Event) (ev : Event) :
    runTrace cfg rmatch (t ++ [ev]) = stepEvent cfg rmatch (runTrace cfg rmatch t) ev := by
  simp [runTrace, List.foldl_append]

theorem runTrace_state (cfg : Config) (rmatch : String → String → Bool) (d : String) :
    ∀ t : List Event,
      (runTrace cfg rmatch t).processStates d = stateScan cfg d t.reverse := by
  intro t
  induction t using List.reverseRecOn with
  | nil => rfl
  | append_singleton t ev ih =>
    rw [runTrace_append, List.reverse_append]
    simp only [List.reverse_cons, List.reverse_nil, List.nil_append, List.singleton_append]
    cases ev with
    | start n =>
      by_cases hn : n = d
      · subst hn
        simp [stepEvent, stateScan, upd]
      · have hdn : d ≠ n := fun h => hn h.symm
        simp [stepEvent, stateScan, upd, hn, hdn, ih]
    | exit n =>
      by_cases hn : n = d
      · subst hn
        simp [stepEvent, stateScan, upd]
      · have hdn : d ≠ n := fun h => hn h.symm
        simp [stepEvent, stateScan, upd, hn, hdn, ih]
    | stop n =>
      by_cases hn : n = d
      · subst hn
        simp [stepEvent, stateScan, upd]
      · have hdn : d ≠ n := fun h => hn h.symm
        simp [stepEvent, stateScan, upd, hn, hdn, ih]
    | line n s =>
      simp [stepEvent, stateScan, ih]

theorem seenScan_true_split (rmatch : String → String → Bool) (cmd : Command)
    (d : String) :
    ∀ r : List Event, seenScan rmatch cmd d r = true →
      ∃ pre s post, r = pre ++ Event.line d s :: post ∧
        matchesFor rmatch cmd d s = true ∧ Event.exit d ∉ pre := by
  intro r
  induction r with
  | nil => intro h; simp [seenScan] at h
  | cons ev rest ih =>
    intro h
    cases ev with
    | exit n =>
      by_cases hn : n = d
      · subst hn
        simp [seenScan] at h
      · rw [show seenScan rmatch cmd d (Event.exit n :: rest) =
            seenScan rmatch cmd d rest by simp [seenScan, hn]] at h
        obtain ⟨pre, s, post, h1, h2, h3⟩ := ih h
        exact ⟨Event.exit n :: pre, s, post, by rw [h1, List.cons_append],
          h2, by simp [h3, Ne.symm hn]⟩
    | line n s0 =>
      by_cases hc : n = d ∧ matchesFor rmatch cmd d s0 = true
      · obtain ⟨hn, hm⟩ := hc
        subst hn
        exact ⟨[], s0, rest, rfl, hm, by simp⟩
      · have heq : seenScan rmatch cmd d (Event.line n s0 :: rest) =
            seenScan rmatch cmd d rest := by
          simp only [seenScan]
          rw [if_neg hc]
        rw [heq] at h
        obtain ⟨pre, s, post, h1, h2, h3⟩ := ih h
        exact ⟨Event.line n s0 :: pre, s, post, by rw [h1, List.cons_append],
          h2, by simp [h3]⟩
    | start n =>
      rw [show seenScan rmatch cmd d (Event.start n :: rest) =
          seenScan rmatch cmd d rest by simp [seenScan]] at h
      obtain ⟨pre, s, post, h1, h2, h3⟩ := ih h
      exact ⟨Event.start n :: pre, s, post, by rw [h1, List.cons_append],
        h2, by simp [h3]⟩
    | stop n =>
      rw [show seenScan rmatch cmd d (Event.stop n :: rest) =
          seenScan rmatch cmd d rest by simp [seenScan]] at h
      obtain ⟨pre, s, post, h1, h2, h3⟩ := ih h
      exact ⟨Event.stop n :: pre, s, post, by rw [h1, List.cons_append],
        h2, by simp [h3]⟩

theorem startedScan_true_split (d : String) :
    ∀ r : List Event, startedScan d r = true →
      ∃ u v, r = u ++ Event.start d :: v ∧ Event.exit d ∉ u := by
  intro r
  induction r with
  | nil => intro h; simp [startedScan] at h
  | cons ev rest ih =>
    intro h
    cases ev with
    | start n =>
      by_cases hn : n = d
      · exact ⟨[], rest, by rw [hn, List.nil_append], by simp⟩
      · rw [show startedScan d (Event.start n :: rest) = startedScan d rest by
            simp [startedScan, hn]] at h
        obtain ⟨u, v, h1, h2⟩ := ih h
        exact ⟨Event.start n :: u, v, by rw [h1, List.cons_append], by simp [h2]⟩
    | exit n =>
      by_cases hn : n = d
      · subst hn
        simp [startedScan] at h
      · rw [show startedScan d (Event.exit n :: rest) = startedScan d rest by
            simp [startedScan, hn]] at h
        obtain ⟨u, v, h1, h2⟩ := ih h
        exact ⟨Event.exit n :: u, v, by rw [h1, List.cons_append],
          by simp [h2, Ne.symm hn]⟩
    | line n s =>
      rw [show startedScan d (Event.line n s :: rest) = startedScan d rest by
          simp [startedScan]] at h
      obtain ⟨u, v, h1, h2⟩ := ih h
      exact ⟨Event.line n s :: u, v, by rw [h1, List.cons_append], by simp [h2]⟩
    | stop n =>
      rw [show startedScan d (Event.stop n :: rest) = startedScan d rest by
          simp [startedScan]] at h
      obtain ⟨u, v, h1, h2⟩ := ih h
      exact ⟨Event.stop n :: u, v, by rw [h1, List.cons_append], by simp [h2]⟩

theorem startedScan_of_split (d : String) :
    ∀ (a v : List Event), Event.exit d ∉ a →
      startedScan d (a ++ Event.start d :: v) = true := by
  intro a
  induction a with
  | nil => intro v _; simp [startedScan]
  | cons ev a' ih =>
    intro v hni
    have hni' : Event.exit d ∉ a' := fun h => hni (List.mem_cons_of_mem _ h)
    cases ev with
    | start n =>
      by_cases hn : n = d
      · simp [startedScan, hn]
      · simp only [List.cons_append]
        rw [show startedScan d (Event.start n :: (a' ++ Event.start d :: v)) =
            if n = d then true else startedScan d (a' ++ Event.start d :: v) by
              simp [startedScan]]
        rw [if_neg hn]
        exact ih v hni'
    | exit n =>
      have hn : n ≠ d := fun h => hni (h ▸ List.mem_cons_self _ _)
      simp only [List.cons_append]
      rw [show startedScan d (Event.exit n :: (a' ++ Event.start d :: v)) =
          if n = d then false else startedScan d (a' ++ Event.start d :: v) by
            simp [startedScan]]
      rw [if_neg hn]
      exact ih v hni'
    | line n s =>
      simp only [List.cons_append]
      rw [show startedScan d (Event.line n s :: (a' ++ Event.start d :: v)) =
          startedScan d (a' ++ Event.start d :: v) by simp [startedScan]]
      exact ih v hni'
    | stop n =>
      simp only [List.cons_append]
      rw [show startedScan d (Event.stop n :: (a' ++ Event.start d :: v)) =
          startedScan d (a' ++ Event.start d :: v) by simp [startedScan]]
      exact ih v hni'

theorem wfCheck_tail (ev : Event) (rest : List Event)
    (h : wfCheck (ev :: rest) = true) : wfCheck rest = true := by
  cases ev with
  | start n => simp [wfCheck, Bool.and_eq_true] at h; exact h.2
  | line n s => simp [wfCheck, Bool.and_eq_true] at h; exact h.2
  | exit n => simpa [wfCheck] using h
  | stop n => simpa [wfCheck] using h

theorem wfCheck_line (n : String) (s : String) :
    ∀ (pre : List Event) (r post : List Event), wfCheck r = true →
      r = pre ++ Event.line n s :: post → startedScan n post = true := by
  intro pre
  induction pre with
  | nil =>
    intro r post hwf hr
    subst hr
    simp [wfCheck, Bool.and_eq_true] at hwf
    exact hwf.1
  | cons ev pre' ih =>
    intro r post hwf hr
    subst hr
    exact ih _ post (wfCheck_tail ev _ hwf) rfl

end Sinfonia

namespace Sinfonia

theorem sinceStartScan_true_split (rmatch : String → String → Bool) (cmd : Command)
    (d : String) :
    ∀ r : List Event, sinceStartScan rmatch cmd d r = true →
      ∃ pre s post, r = pre ++ Event.line d s :: post ∧
        matchesFor rmatch cmd d s = true ∧ Event.start d ∉ pre := by
  intro r
  induction r with
  | nil => intro h; simp [sinceStartScan] at h
  | cons ev rest ih =>
    intro h
    cases ev with
    | start n =>
      by_cases hn : n = d
      · subst hn
        simp [sinceStartScan] at h
      · rw [show sinceStartScan rmatch cmd d (Event.start n :: rest) =
            sinceStartScan rmatch cmd d rest by simp [sinceStartScan, hn]] at h
        obtain ⟨pre, s, post, h1, h2, h3⟩ := ih h
        exact ⟨Event.start n :: pre, s, post, by rw [h1, List.cons_append],
          h2, by simp [h3, Ne.symm hn]⟩
    | line n s0 =>
      by_cases hc : n = d ∧ matchesFor rmatch cmd d s0 = true
      · obtain ⟨hn, hm⟩ := hc
        subst hn
        exact ⟨[], s0, rest, rfl, hm, by simp⟩
      · have heq : sinceStartScan rmatch cmd d (Event.line n s0 :: rest) =
            sinceStartScan rmatch cmd d rest := by
          simp only [sinceStartScan]
          rw [if_neg hc]
        rw [heq] at h
        obtain ⟨pre, s, post, h1, h2, h3⟩ := ih h
        exact ⟨Event.line n s0 :: pre, s, post, by rw [h1, List.cons_append],
          h2, by simp [h3]⟩
    | exit n =>
      rw [show sinceStartScan rmatch cmd d (Event.exit n :: rest) =
          sinceStartScan rmatch cmd d rest by simp [sinceStartScan]] at h
      obtain ⟨pre, s, post, h1, h2, h3⟩ := ih h
      exact ⟨Event.exit n :: pre, s, post, by rw [h1, List.cons_append],
        h2, by simp [h3]⟩
    | stop n =>
      rw [show sinceStartScan rmatch cmd d (Event.stop n :: rest) =
          sinceStartScan rmatch cmd d rest by simp [sinceStartScan]] at h
      obtain ⟨pre, s, post, h1, h2, h3⟩ := ih h
      exact ⟨Event.stop n :: pre, s, post, by rw [h1, List.cons_append],
        h2, by simp [h3]⟩

theorem sinceStartScan_of_split (rmatch : String → String → Bool) (cmd : Command)
    (d : String) :
    ∀ (pre : List Event) (s : String) (post : List Event),
      matchesFor rmatch cmd d s = true → Event.start d ∉ pre →
      sinceStartScan rmatch cmd d (pre ++ Event.line d s :: post) = true := by
  intro pre
  induction pre with
  | nil =>
    intro s post hm _
    simp only [List.nil_append]
    simp [sinceStartScan, hm]
  | cons ev pre' ih =>
    intro s post hm hni
    have hni' : Event.start d ∉ pre' := fun h => hni (List.mem_cons_of_mem _ h)
    cases ev with
    | start n =>
      have hn : n ≠ d := fun h => hni (h ▸ List.mem_cons_self _ _)
      simp only [List.cons_append, sinceStartScan]
      rw [if_neg hn]
      exact ih s post hm hni'
    | line n s0 =>
      by_cases hc : n = d ∧ matchesFor rmatch cmd d s0 = true
      · simp only [List.cons_append, sinceStartScan]
        rw [if_pos hc]
      · simp only [List.cons_append, sinceStartScan]
        rw [if_neg hc]
        exact ih s post hm hni'
    | exit n =>
      simp only [List.cons_append, sinceStartScan]
      exact ih s post hm hni'
    | stop n =>
      simp only [List.cons_append, sinceStartScan]
      exact ih s post hm hni'

theorem any_name_eq (cmds : List Command) (hnd : (cmds.map Command.name).Nodup)
    (cmd : Command) (hmem : cmd ∈ cmds) (p : Command → Bool) :
    (cmds.any fun w => (w.name == cmd.name) && p w) = p cmd := by
  cases hp : p cmd with
  | true =>
    apply List.any_eq_true.mpr
    exact ⟨cmd, hmem, by simp [hp]⟩
  | false =>
    apply List.any_eq_false.mpr
    intro w hw
    by_cases hwn : w.name = cmd.name
    · have hw2 : w = cmd := List.inj_on_of_nodup_map hnd hw hmem hwn
      subst hw2
      simp [hp]
    · simp [hwn]

theorem runTrace_flag (cfg : Config) (rmatch : String → String → Bool)
    (cmd : Command) (d : String)
    (hmem : cmd ∈ cfg.commands) (hdep : d ∈ cmd.dependsOn)
    (hnames : (cfg.commands.map Command.name).Nodup) :
    ∀ t : List Event, homogFree t d = true →
      (runTrace cfg rmatch t).dependencyReady cmd.name (jsToLower d) =
        seenScan rmatch cmd d t.reverse := by
  intro t
  induction t using List.reverseRecOn with
  | nil => intro _; rfl
  | append_singleton t ev ih =>
    intro hhom
    have hhom2 : homogFree t d = true ∧
        (!(jsToLower (evName ev) == jsToLower d) || (evName ev == d)) = true := by
      simpa [homogFree, List.all_append] using hhom
    rw [runTrace_append, List.reverse_append]
    simp only [List.reverse_cons, List.reverse_nil, List.nil_append, List.singleton_append]
    cases ev with
    | start n =>
      rw [show seenScan rmatch cmd d (Event.start n :: t.reverse) =
          seenScan rmatch cmd d t.reverse by simp [seenScan]]
      exact ih hhom2.1
    | stop n =>
      rw [show seenScan rmatch cmd d (Event.stop n :: t.reverse) =
          seenScan rmatch cmd d t.reverse by simp [seenScan]]
      exact ih hhom2.1
    | exit n =>
      by_cases hn : n = d
      · subst hn
        have hany : (cfg.commands.any fun w =>
            w.name == cmd.name && w.dependsOn.contains n) = true := by
          rw [any_name_eq cfg.commands hnames cmd hmem
            (fun w => w.dependsOn.contains n)]
          simpa using hdep
        rw [show seenScan rmatch cmd n (Event.exit n :: t.reverse) = false by
          simp [seenScan]]
        simp only [stepEvent]
        rw [hany]
        simp
      · have hbne : (n == d) = false := by simp [hn]
        have hlne : (jsToLower d == jsToLower n) = false := by
          have h2 := hhom2.2
          simp only [evName, hbne, Bool.or_false, Bool.not_eq_true'] at h2
          simp only [beq_eq_false_iff_ne, ne_eq]
          intro heq
          rw [beq_eq_false_iff_ne] at h2
          exact h2 heq.symm
        rw [show seenScan rmatch cmd d (Event.exit n :: t.reverse) =
            seenScan rmatch cmd d t.reverse by simp [seenScan, hn]]
        simp only [stepEvent]
        rw [hlne]
        simp only [Bool.and_false]
        simp [ih hhom2.1]
    | line n s =>
      by_cases hn : n = d
      · subst hn
        have hf : (fun w => w.name == cmd.name && w.dependsOn.contains n &&
            patTruthy w n && rmatch (patternOf w n) s) =
            (fun w => (w.name == cmd.name) && matchesFor rmatch w n s) := by
          funext w
          simp [matchesFor, Bool.and_assoc]
        cases hm : matchesFor rmatch cmd n s with
        | true =>
          have hany : (cfg.commands.any fun w =>
              w.name == cmd.name && w.dependsOn.contains n &&
                patTruthy w n && rmatch (patternOf w n) s) = true := by
            rw [hf, any_name_eq cfg.commands hnames cmd hmem
              (fun w => matchesFor rmatch w n s)]
            exact hm
          rw [show seenScan rmatch cmd n (Event.line n s :: t.reverse) = true by
            simp [seenScan, hm]]
          simp only [stepEvent]
          rw [hany]
          simp
        | false =>
          have hany : (cfg.commands.any fun w =>
              w.name == cmd.name && w.dependsOn.contains n &&
                patTruthy w n && rmatch (patternOf w n) s) = false := by
            rw [hf, any_name_eq cfg.commands hnames cmd hmem
              (fun w => matchesFor rmatch w n s)]
            exact hm
          have hseen : seenScan rmatch cmd n (Event.line n s :: t.reverse) =
              seenScan rmatch cmd n t.reverse := by
            simp only [seenScan]
            rw [if_neg (fun hc => by rw [hm] at hc; exact absurd hc.2 (by simp))]
          rw [hseen]
          simp only [stepEvent]
          rw [hany]
          simp only [Bool.false_and]
          simp [ih hhom2.1]
      · have hbne : (n == d) = false := by simp [hn]
        have hlne : (jsToLower d == jsToLower n) = false := by
          have h2 := hhom2.2
          simp only [evName, hbne, Bool.or_false, Bool.not_eq_true'] at h2
          simp only [beq_eq_false_iff_ne, ne_eq]
          intro heq
          rw [beq_eq_false_iff_ne] at h2
          exact h2 heq.symm
        have hseen : seenScan rmatch cmd d (Event.line n s :: t.reverse) =
            seenScan rmatch cmd d t.reverse := by
          simp only [seenScan]
          rw [if_neg (fun hc => hn hc.1)]
        rw [hseen]
        simp only [stepEvent]
        rw [hlne]
        simp only [Bool.and_false]
        simp [ih hhom2.1]

theorem seen_eq_since (cfg : Config) (rmatch : String → String → Bool)
    (cmd : Command) (d : String) :
    ∀ r : List Event, wfCheck r = true → stateScan cfg d r = some PState.running →
      seenScan rmatch cmd d r = sinceStartScan rmatch cmd d r := by
  intro r
  induction r with
  | nil => intro _ _; rfl
  | cons ev rest ih =>
    intro hwf hst
    cases ev with
    | start n =>
      by_cases hn : n = d
      · subst hn
        rw [show seenScan rmatch cmd n (Event.start n :: rest) =
            seenScan rmatch cmd n rest by simp [seenScan]]
        rw [show sinceStartScan rmatch cmd n (Event.start n :: rest) = false by
          simp [sinceStartScan]]
        by_contra hne
        have hseen : seenScan rmatch cmd n rest = true := by
          cases h : seenScan rmatch cmd n rest
          · exact absurd h hne
          · rfl
        obtain ⟨pre, s, post, h1, h2, h3⟩ :=
          seenScan_true_split rmatch cmd n rest hseen
        have hstarted : startedScan n post = true :=
          wfCheck_line n s (Event.start n :: pre) (Event.start n :: rest) post hwf
            (by rw [h1, List.cons_append])
        obtain ⟨u, v, h4, h5⟩ := startedScan_true_split n post hstarted
        have hrest : rest = (pre ++ Event.line n s :: u) ++ Event.start n :: v := by
          rw [h1, h4]
          simp
        have hnotstarted : (!startedScan n rest) = true := by
          simp only [wfCheck, Bool.and_eq_true] at hwf
          exact hwf.1
        have hstarted2 : startedScan n rest = true := by
          rw [hrest]
          apply startedScan_of_split
          intro hmm
          rcases List.mem_append.mp hmm with hml | hmr
          · exact h3 hml
          · rcases List.mem_cons.mp hmr with heq | hmu
            · cases heq
            · exact h5 hmu
        rw [hstarted2] at hnotstarted
        exact absurd hnotstarted (by simp)
      · rw [show seenScan rmatch cmd d (Event.start n :: rest) =
            seenScan rmatch cmd d rest by simp [seenScan]]
        rw [show sinceStartScan rmatch cmd d (Event.start n :: rest) =
            sinceStartScan rmatch cmd d rest by simp [sinceStartScan, hn]]
        have hst2 : stateScan cfg d rest = some PState.running := by
          rw [show stateScan cfg d (Event.start n :: rest) =
              stateScan cfg d rest by simp [stateScan, hn]] at hst
          exact hst
        exact ih (wfCheck_tail _ _ hwf) hst2
    | exit n =>
      by_cases hn : n = d
      · subst hn
        rw [show stateScan cfg n (Event.exit n :: rest) = some PState.stopped by
          simp [stateScan]] at hst
        cases hst
      · rw [show seenScan rmatch cmd d (Event.exit n :: rest) =
            seenScan rmatch cmd d rest by simp [seenScan, hn]]
        rw [show sinceStartScan rmatch cmd d (Event.exit n :: rest) =
            sinceStartScan rmatch cmd d rest by simp [sinceStartScan]]
        have hst2 : stateScan cfg d rest = some PState.running := by
          rw [show stateScan cfg d (Event.exit n :: rest) =
              stateScan cfg d rest by simp [stateScan, hn]] at hst
          exact hst
        exact ih (wfCheck_tail _ _ hwf) hst2
    | stop n =>
      by_cases hn : n = d
      · subst hn
        rw [show stateScan cfg n (Event.stop n :: rest) = some PState.stopped by
          simp [stateScan]] at hst
        cases hst
      · rw [show seenScan rmatch cmd d (Event.stop n :: rest) =
            seenScan rmatch cmd d rest by simp [seenScan]]
        rw [show sinceStartScan rmatch cmd d (Event.stop n :: rest) =
            sinceStartScan rmatch cmd d rest by simp [sinceStartScan]]
        have hst2 : stateScan cfg d rest = some PState.running := by
          rw [show stateScan cfg d (Event.stop n :: rest) =
              stateScan cfg d rest by simp [stateScan, hn]] at hst
          exact hst
        exact ih (wfCheck_tail _ _ hwf) hst2
    | line n s =>
      have hst2 : stateScan cfg d rest = some PState.running := by
        rw [show stateScan cfg d (Event.line n s :: rest) =
            stateScan cfg d rest by simp [stateScan]] at hst
        exact hst
      by_cases hc : n = d ∧ matchesFor rmatch cmd d s = true
      · rw [show seenScan rmatch cmd d (Event.line n s :: rest) = true by
          simp only [seenScan]; rw [if_pos hc]]
        rw [show sinceStartScan rmatch cmd d (Event.line n s :: rest) = true by
          simp only [sinceStartScan]; rw [if_pos hc]]
      · rw [show seenScan rmatch cmd d (Event.line n s :: rest) =
            seenScan rmatch cmd d rest by simp only [seenScan]; rw [if_neg hc]]
        rw [show sinceStartScan rmatch cmd d (Event.line n s :: rest) =
            sinceStartScan rmatch cmd d rest by
              simp only [sinceStartScan]; rw [if_neg hc]]
        exact ih (wfCheck_tail _ _ hwf) hst2

end Sinfonia

namespace Sinfonia

/-- C1: the per-dependency filter predicates of `startProcess` and of the
recheck pass `startPendingProcesses` agree everywhere; and over every
well-formed event trace (each output chunk comes from a live instance, an
instance's exit event is processed before the next instance of the same
process starts, and no differently-named process collides with `d`'s
lower-cased flag key), the check deems dependency `d` of `cmd` satisfied
exactly when `d`'s state is Running and — when `cmd` declares a (truthy)
ready pattern for `d` — some line of `d`'s output matching that pattern was
processed since `d`'s most recent start. -/
theorem c1_dependency_satisfaction (cfg : Config) (rmatch : String → String → Bool)
    (t : List Event) (cmd : Command) (d : String)
    (hmem : cmd ∈ cfg.commands) (hdep : d ∈ cmd.dependsOn)
    (hnames : (cfg.commands.map Command.name).Nodup)
    (hwf : wfCheck t.reverse = true)
    (hhom : homogFree t d = true) :
    (∀ (st : SysState) (n : String) (c : Command) (dp : String),
      unreadySP st n c dp = unreadyRC st n c dp) ∧
    (unreadySP (runTrace cfg rmatch t) cmd.name cmd d = false ↔
      ((runTrace cfg rmatch t).processStates d = some PState.running ∧
        (patTruthy cmd d = true →
          ∃ pre s post, t.reverse = pre ++ Event.line d s :: post ∧
            rmatch (patternOf cmd d) s = true ∧ Event.start d ∉ pre))) := by
  refine ⟨unready_eq, ?_⟩
  rw [unreadySP_false_iff]
  constructor
  · rintro ⟨hrun, hflag⟩
    refine ⟨hrun, ?_⟩
    intro hpat
    have hstscan : stateScan cfg d t.reverse = some PState.running := by
      rw [← runTrace_state]
      exact hrun
    have hflag2 := hflag hpat
    rw [runTrace_flag cfg rmatch cmd d hmem hdep hnames t hhom] at hflag2
    rw [seen_eq_since cfg rmatch cmd d t.reverse hwf hstscan] at hflag2
    obtain ⟨pre, s, post, h1, h2, h3⟩ :=
      sinceStartScan_true_split rmatch cmd d t.reverse hflag2
    have hrm : rmatch (patternOf cmd d) s = true := by
      simp only [matchesFor, Bool.and_eq_true] at h2
      exact h2.2
    exact ⟨pre, s, post, h1, hrm, h3⟩
  · rintro ⟨hrun, hex⟩
    refine ⟨hrun, ?_⟩
    intro hpat
    obtain ⟨pre, s, post, h1, h2, h3⟩ := hex hpat
    have hcont : cmd.dependsOn.contains d = true := by simpa using hdep
    have hm : matchesFor rmatch cmd d s = true := by
      simp only [matchesFor, Bool.and_eq_true]
      exact ⟨⟨hcont, hpat⟩, h2⟩
    have hstscan : stateScan cfg d t.reverse = some PState.running := by
      rw [← runTrace_state]
      exact hrun
    have hsince : sinceStartScan rmatch cmd d t.reverse = true := by
      rw [h1]
      exact sinceStartScan_of_split rmatch cmd d pre s post hm h3
    rw [runTrace_flag cfg rmatch cmd d hmem hdep hnames t hhom]
    rw [seen_eq_since cfg rmatch cmd d t.reverse hwf hstscan]
    exact hsince

/-- Witness for C1: `api` depends on `db` with pattern "ready"; after the
trace [start db, line db "ready"], the check deems `db` satisfied. -/
theorem c1_dependency_satisfaction_witness :
    ((⟨"api", "a", "c", none, ["db"], [("db", "ready")]⟩ : Command) ∈
        ([⟨"db", "d", "c", none, [], []⟩,
          ⟨"api", "a", "c", none, ["db"], [("db", "ready")]⟩] : List Command) ∧
      "db" ∈ (⟨"api", "a", "c", none, ["db"], [("db", "ready")]⟩ : Command).dependsOn ∧
      wfCheck ([Event.start "db", Event.line "db" "ready"] : List Event).reverse = true ∧
      homogFree [Event.start "db", Event.line "db" "ready"] "db" = true) ∧
    unreadySP
      (runTrace
        ⟨[⟨"db", "d", "c", none, [], []⟩,
          ⟨"api", "a", "c", none, ["db"], [("db", "ready")]⟩], [], 10⟩
        (fun p s => p == s) [Event.start "db", Event.line "db" "ready"])
      "api" ⟨"api", "a", "c", none, ["db"], [("db", "ready")]⟩ "db" = false := by
  refine ⟨⟨by decide, by decide, by decide, by decide⟩, ?_⟩
  have h := c1_dependency_satisfaction
    ⟨[⟨"db", "d", "c", none, [], []⟩,
      ⟨"api", "a", "c", none, ["db"], [("db", "ready")]⟩], [], 10⟩
    (fun p s => p == s) [Event.start "db", Event.line "db" "ready"]
    ⟨"api", "a", "c", none, ["db"], [("db", "ready")]⟩ "db"
    (by decide) (by decide) (by decide) (by decide) (by decide)
  exact h.2.mpr ⟨by decide,
    fun _ => ⟨[], "ready", [Event.start "db"], rfl, by decide, by decide⟩⟩

end Sinfonia
